import Mathlib

/-!
# ConvRev: block scheduler, configuration and IR conditioning

A shallow embedding of `src/ConvRev/ConvRev.cpp` (class `ConvRev` and the
ChucK-facing `convrev_*` entry points) together with the properties proved
about it.

Modelling conventions.

* Floating-point values (`t_CKFLOAT`, `SAMPLE`, `fftconvolver::Sample`, `float`)
  are modelled by `CKFloat`: an exact rational, or one of `+Inf`, `-Inf`, `NaN`.
  The operations `mul` and `div` are exact (no rounding, no signed zero), and the
  conversions between `float` and `double` are the identity; `conditionIR` and
  `init` use them and give the behaviour over exact arithmetic.
* The `float` arithmetic of the source is modelled by `round32` (IEEE 754
  binary32, round to nearest, ties to even, with subnormals and overflow);
  `conditionIR32` and `init32` are `conditionIR` and `init` with every product
  and quotient rounded by it.
* `t_CKINT` and `size_t` values are `Int` and `Nat`; the 32-bit `int` of
  `setBlockSize` wraps modulo `2^32` explicitly.
* The vendored `fftconvolver::FFTConvolver` is a parameter (`Engine`).
* Out-of-bounds vector accesses and conversions with no defined result make an
  operation return `none`.
-/

set_option autoImplicit false

/-! ## Floating-point values -/

/-- Floating-point value over exact arithmetic: a rational or a special value. -/
inductive CKFloat where
  | finite (q : ℚ)
  | posInf
  | negInf
  | nan
  deriving DecidableEq

/-- Samples (`SAMPLE`, `fftconvolver::Sample`) share the representation of `t_CKFLOAT`. -/
abbrev Sample := CKFloat

namespace CKFloat

/-- The literal `0` (also `0.0f`). -/
def zero : CKFloat := finite 0

/-- The C++ `std::isnan`. -/
def isnan : CKFloat → Bool
  | nan => true
  | _ => false

/-- The C++ `std::isinf`. -/
def isinf : CKFloat → Bool
  | posInf => true
  | negInf => true
  | _ => false

/-- Neither NaN nor infinite. -/
def isFinite : CKFloat → Bool
  | finite _ => true
  | _ => false

/-- The C++ `std::abs` on a float. -/
def abs : CKFloat → CKFloat
  | finite q => finite |q|
  | posInf => posInf
  | negInf => posInf
  | nan => nan

/-- The C++ comparison `a > b`: false as soon as one side is NaN. -/
def gt : CKFloat → CKFloat → Bool
  | finite a, finite b => decide (b < a)
  | finite _, negInf => true
  | posInf, finite _ => true
  | posInf, negInf => true
  | _, _ => false

/-- Sign of a rational as used for the sign of an infinite result. -/
def signedInf (positive : Bool) : CKFloat := if positive then posInf else negInf

/-- The C++ product `a * b`. -/
def mul : CKFloat → CKFloat → CKFloat
  | finite a, finite b => finite (a * b)
  | nan, _ => nan
  | _, nan => nan
  | finite a, posInf => if a = 0 then nan else signedInf (decide (0 < a))
  | finite a, negInf => if a = 0 then nan else signedInf (decide (a < 0))
  | posInf, finite b => if b = 0 then nan else signedInf (decide (0 < b))
  | negInf, finite b => if b = 0 then nan else signedInf (decide (b < 0))
  | posInf, posInf => posInf
  | negInf, negInf => posInf
  | posInf, negInf => negInf
  | negInf, posInf => negInf

/-- The C++ quotient `a / b` (a zero divisor counts as `+0`). -/
def div : CKFloat → CKFloat → CKFloat
  | finite a, finite b =>
    if b = 0 then (if a = 0 then nan else signedInf (decide (0 < a))) else finite (a / b)
  | nan, _ => nan
  | _, nan => nan
  | finite _, posInf => finite 0
  | finite _, negInf => finite 0
  | posInf, finite b => signedInf (decide (0 ≤ b))
  | negInf, finite b => signedInf (decide (b < 0))
  | posInf, posInf => nan
  | posInf, negInf => nan
  | negInf, posInf => nan
  | negInf, negInf => nan

/-- Truncation of a rational toward zero, the rounding of a C++ float-to-integer cast. -/
def truncQ (q : ℚ) : Int := if 0 ≤ q then ⌊q⌋ else ⌈q⌉

/-- The cast `(int)p` to a 32-bit signed integer; `none` where C++ leaves it undefined. -/
def toInt32 : CKFloat → Option Int
  | finite q => if -2 ^ 31 ≤ truncQ q ∧ truncQ q < 2 ^ 31 then some (truncQ q) else none
  | _ => none

/-- The conversion of a `t_CKFLOAT` to `t_CKINT` (64-bit); `none` where C++ leaves it undefined. -/
def toCKInt : CKFloat → Option Int
  | finite q => if -2 ^ 63 ≤ truncQ q ∧ truncQ q < 2 ^ 63 then some (truncQ q) else none
  | _ => none

/-- The conversion of a `t_CKINT` to `t_CKFLOAT`. -/
def ofInt (n : Int) : CKFloat := finite n

end CKFloat

/-! ## The convolution engine (vendored, abstract) -/

/-- The vendored `fftconvolver::FFTConvolver`, as far as `ConvRev` uses it: a
default-constructed state, `init(blockSize, ir, irLen)`, and
`process(input, output, len)`, which reads `len` input samples and writes
exactly `len` output samples. -/
structure Engine (E : Type) where
  ctor : E
  init : E → Int → List Sample → Int → E
  process : E → List Sample → E × List Sample
  process_length : ∀ e inp, (process e inp).2.length = inp.length

/-! ## The `ConvRev` object -/

/-- The data members of `class ConvRev`. -/
structure ConvRev (E : Type) where
  SR : CKFloat
  blocksize : Int
  order : Int
  ir_buffer : List Sample
  input_buffer : List Sample
  output_buffer : List Sample
  convolver : E
  idx : Nat

/-- Default FFT block size: 512 under Emscripten, 128 otherwise. -/
def CONV_REV_BLOCKSIZE (emscripten : Bool) : Int := if emscripten then 512 else 128

/-- The C++ `std::vector::resize(n, v)`: truncate, or pad with copies of `v`. -/
def vecResize {α : Type} (l : List α) (n : Nat) (v : α) : List α :=
  l.take n ++ List.replicate (n - l.length) v

/-- The C++ `std::fill(begin, end, v)` over a whole vector. -/
def vecFill {α : Type} (l : List α) (v : α) : List α := List.replicate l.length v

/-- Wrap an integer into the range of a 32-bit signed `int`. -/
def wrap32 (n : Int) : Int := (n + 2 ^ 31) % 2 ^ 32 - 2 ^ 31

/-- The loop `while (p2 < size) p2 <<= 1;` on 32-bit `int`s, with the shift taken
modulo `2^32`; `fuel` bounds the number of loop tests. -/
def roundLoop : Nat → Int → Int → Option Int
  | 0, _, _ => none
  | fuel + 1, p2, size =>
    if p2 < size then roundLoop fuel (wrap32 (p2 * 2)) size else some p2

namespace ConvRev

variable {E : Type}

/-- The constructor `ConvRev(t_CKFLOAT fs)`. -/
def ctor (eng : Engine E) (emscripten : Bool) (fs : CKFloat) : ConvRev E :=
  { SR := fs
    blocksize := CONV_REV_BLOCKSIZE emscripten
    order := 0
    ir_buffer := []
    input_buffer := vecResize [] (CONV_REV_BLOCKSIZE emscripten).toNat CKFloat.zero
    output_buffer := vecResize [] (CONV_REV_BLOCKSIZE emscripten).toNat CKFloat.zero
    convolver := eng.ctor
    idx := 0 }

/-- The method `SAMPLE tick(SAMPLE in)`. The result is `none` when `_idx` is
outside one of the two buffers. The test `_idx == _blocksize` compares as
integers (for a non-negative `_blocksize` the conversion to `size_t` is the
identity, and a negative one equals no index). At a block boundary the engine
reads the first `_blocksize` input samples and overwrites the first
`_blocksize` output samples. -/
def tick (eng : Engine E) (s : ConvRev E) (x : Sample) : Option (ConvRev E × Sample) :=
  if s.idx < s.input_buffer.length then
    match s.output_buffer[s.idx]? with
    | none => none
    | some output =>
      let inp := s.input_buffer.set s.idx x
      let idx := s.idx + 1
      if (idx : Int) = s.blocksize then
        let r := eng.process s.convolver (inp.take idx)
        some ({ s with
                input_buffer := inp
                output_buffer := r.2 ++ s.output_buffer.drop idx
                convolver := r.1
                idx := 0 }, output)
      else
        some ({ s with input_buffer := inp, idx := idx }, output)
  else none

/-- The method `t_CKFLOAT setBlockSize(t_CKFLOAT p)`. The result is `none` when
the cast `(int)p` is undefined or when the rounding loop has not ended within
`fuel` tests. -/
def setBlockSize (fuel : Nat) (s : ConvRev E) (p : CKFloat) : Option (ConvRev E × CKFloat) :=
  match p.toInt32 with
  | none => none
  | some size0 =>
    let size := if size0 < 32 then 32 else size0
    match roundLoop fuel 1 size with
    | none => none
    | some p2 =>
      some ({ s with
              blocksize := p2
              input_buffer := vecFill (vecResize s.input_buffer p2.toNat CKFloat.zero) CKFloat.zero
              output_buffer := vecFill (vecResize s.output_buffer p2.toNat CKFloat.zero) CKFloat.zero
              idx := 0 }, CKFloat.ofInt p2)

/-- The method `t_CKFLOAT getBlockSize()`. -/
def getBlockSize (s : ConvRev E) : CKFloat := CKFloat.ofInt s.blocksize

/-- The method `void setOrder(t_CKINT m)`. A negative `m` becomes a huge
`size_t` and `resize` throws: `none`. -/
def setOrder (s : ConvRev E) (m : Int) : Option (ConvRev E) :=
  if m < 0 then none
  else some { s with order := m, ir_buffer := vecResize s.ir_buffer m.toNat CKFloat.zero }

/-- The method `t_CKINT getOrder()`. -/
def getOrder (s : ConvRev E) : Int := s.order

/-- The method `void setCoeff(t_CKINT idx, t_CKFLOAT val)`. -/
def setCoeff (s : ConvRev E) (idx : Int) (val : CKFloat) : ConvRev E :=
  if 0 ≤ idx ∧ idx < (s.ir_buffer.length : Int) then
    { s with ir_buffer := s.ir_buffer.set idx.toNat val }
  else s

/-- The method `t_CKFLOAT getCoeff(t_CKINT idx)`. -/
def getCoeff (s : ConvRev E) (idx : Int) : CKFloat :=
  if 0 ≤ idx ∧ idx < (s.ir_buffer.length : Int) then
    s.ir_buffer.getD idx.toNat CKFloat.zero
  else CKFloat.zero

/-- First loop of `init`: is some coefficient NaN or infinite? -/
def hasPoly (ir : List Sample) : Bool := ir.any (fun f => f.isnan || f.isinf)

/-- Second loop of `init`: the running maximum of `std::abs(f)`, from `0.0f`. -/
def maxVal (ir : List Sample) : CKFloat :=
  ir.foldl (fun max_val f => if f.abs.gt max_val then f.abs else max_val) CKFloat.zero

/-- The threshold literal `0.000001f`. -/
def peakThreshold : CKFloat := CKFloat.finite (1 / 1000000)

/-- The literal `0.5f`. -/
def half : CKFloat := CKFloat.finite (1 / 2)

/-- The IR conditioning done in place at the start of `init`: the finiteness
scrub followed by the peak normalization, over exact arithmetic (`conditionIR32`
is the same with binary32 rounding). -/
def conditionIR (ir : List Sample) : List Sample :=
  let ir1 := if hasPoly ir then vecFill ir CKFloat.zero else ir
  let max_val := maxVal ir1
  if max_val.gt peakThreshold then
    ir1.map (fun c => c.mul (half.div max_val))
  else ir1

/-- The method `t_CKVOID init()` over exact arithmetic (the console message is not
part of the state). -/
def init (eng : Engine E) (s : ConvRev E) : ConvRev E :=
  let ir := conditionIR s.ir_buffer
  { s with
    ir_buffer := ir
    input_buffer := vecFill s.input_buffer CKFloat.zero
    output_buffer := vecFill s.output_buffer CKFloat.zero
    idx := 0
    convolver := eng.init s.convolver s.blocksize ir s.order }

end ConvRev

/-! ## Binary32 arithmetic

The source computes the peak normalization in `float` (IEEE 754 binary32: 24
significant bits, exponents from -126, subnormals with spacing `2^-149`, round to
nearest, ties to even). The definitions below round the exact result of one
operation to binary32; `conditionIR32` and `init32` are `conditionIR` and `init`
with every multiplication and division rounded in this way. -/

/-- Round a rational to the nearest integer, ties to the even one. -/
def roundEven (r : ℚ) : Int :=
  if r - ⌊r⌋ < 1 / 2 then ⌊r⌋
  else if 1 / 2 < r - ⌊r⌋ then ⌊r⌋ + 1
  else if ⌊r⌋ % 2 = 0 then ⌊r⌋ else ⌊r⌋ + 1

/-- The binary exponent used for `x` in binary32: `floor(log2 |x|)`, but at least
`-126` (subnormal range, and zero). -/
def exp32 (x : ℚ) : Int := if x = 0 then -126 else max (Int.log 2 |x|) (-126)

/-- The spacing of the binary32 values around `x`. -/
def ulp32 (x : ℚ) : ℚ := (2 : ℚ) ^ (exp32 x - 23)

/-- The multiple of the spacing nearest to `x` (ties to even). -/
def nearest32 (x : ℚ) : ℚ := (roundEven (x / ulp32 x) : ℚ) * ulp32 x

/-- Rounding of an exact result to binary32; results of magnitude `2^128` or more overflow. -/
def round32 (x : ℚ) : CKFloat :=
  if |nearest32 x| < 2 ^ 128 then CKFloat.finite (nearest32 x)
  else if 0 < x then CKFloat.posInf else CKFloat.negInf

/-- Rounding to binary32 of the result of an operation; special values pass through. -/
def CKFloat.toF32 : CKFloat → CKFloat
  | CKFloat.finite q => round32 q
  | c => c

/-- The binary32 product `a * b`. -/
def CKFloat.mul32 (a b : CKFloat) : CKFloat := (a.mul b).toF32

/-- The binary32 quotient `a / b`. -/
def CKFloat.div32 (a b : CKFloat) : CKFloat := (a.div b).toF32

/-- The value is one that a binary32 variable can hold. -/
def CKFloat.IsBinary32 : CKFloat → Prop
  | CKFloat.finite q => round32 q = CKFloat.finite q
  | _ => True

/-- The threshold literal `0.000001f` as a binary32 value. -/
def ConvRev.peakThreshold32 : CKFloat := round32 (1 / 1000000)

/-- The IR conditioning of `init` in binary32 arithmetic: as `conditionIR`, with
`0.5f / max_val` and every product `_ir_buffer[i] * scale` rounded to binary32. -/
def ConvRev.conditionIR32 (ir : List Sample) : List Sample :=
  let ir1 := if ConvRev.hasPoly ir then vecFill ir CKFloat.zero else ir
  let max_val := ConvRev.maxVal ir1
  if max_val.gt ConvRev.peakThreshold32 then
    ir1.map (fun c => c.mul32 (ConvRev.half.div32 max_val))
  else ir1

/-- The method `t_CKVOID init()` in binary32 arithmetic. -/
def ConvRev.init32 {E : Type} (eng : Engine E) (s : ConvRev E) : ConvRev E :=
  let ir := ConvRev.conditionIR32 s.ir_buffer
  { s with
    ir_buffer := ir
    input_buffer := vecFill s.input_buffer CKFloat.zero
    output_buffer := vecFill s.output_buffer CKFloat.zero
    idx := 0
    convolver := eng.init s.convolver s.blocksize ir s.order }

/-! ## The ChucK-facing entry points -/

/-- The members of the `RETURN` slot that the entry points write. -/
inductive DLReturn where
  | unset
  | v_int (n : Option Int)
  | v_float (x : CKFloat)
  deriving DecidableEq

/-- Return types under which `CK_DLL_QUERY` registers the member functions. -/
inductive CKType where
  | int
  | float
  | void
  deriving DecidableEq

/-- Outcome of one entry point: the object afterwards, the exception handed to
`throw_exception` (if any) and the `RETURN` slot. -/
structure CallResult (E : Type) where
  state : ConvRev E
  thrown : Option String
  ret : DLReturn

/-- The member of `RETURN` that the host reads for a function registered with this type. -/
def DLReturn.hasType : DLReturn → CKType → Bool
  | DLReturn.unset, CKType.void => true
  | DLReturn.v_int _, CKType.int => true
  | DLReturn.v_float _, CKType.float => true
  | _, _ => false

section EntryPoints

variable {E : Type}

/-- The entry point `convrev_setBlockSize`, registered as `"float"`. -/
def convrev_setBlockSize (fuel : Nat) (s : ConvRev E) (arg : CKFloat) : Option (CallResult E) :=
  match ConvRev.setBlockSize fuel s arg with
  | none => none
  | some (s', r) => some { state := s', thrown := none, ret := DLReturn.v_float r }

/-- The entry point `convrev_getBlockSize`, registered as `"float"`. -/
def convrev_getBlockSize (s : ConvRev E) : CallResult E :=
  { state := s, thrown := none, ret := DLReturn.v_float s.getBlockSize }

/-- The entry point `convrev_setOrder`, registered as `"int"`. -/
def convrev_setOrder (s : ConvRev E) (order : Int) : Option (CallResult E) :=
  if order < 0 then
    some { state := s, thrown := some "InvalidArgument", ret := DLReturn.v_int (some order) }
  else
    match s.setOrder order with
    | none => none
    | some s' => some { state := s', thrown := none, ret := DLReturn.v_int (some order) }

/-- The entry point `convrev_getOrder`, registered as `"int"`. -/
def convrev_getOrder (s : ConvRev E) : CallResult E :=
  { state := s, thrown := none, ret := DLReturn.v_int (some s.getOrder) }

/-- The entry point `convrev_setCoeff`, registered as `"float"`; it ends with
`RETURN->v_int = val`. -/
def convrev_setCoeff (s : ConvRev E) (idx : Int) (val : CKFloat) : CallResult E :=
  if idx ≥ s.getOrder ∨ idx < 0 then
    { state := s, thrown := some "IndexOutOfBounds", ret := DLReturn.v_int val.toCKInt }
  else
    { state := s.setCoeff idx val, thrown := none, ret := DLReturn.v_int val.toCKInt }

/-- The entry point `convrev_getCoeff`, registered as `"float"`; it is
`RETURN->v_int = cr_obj->getCoeff(...)`. -/
def convrev_getCoeff (s : ConvRev E) (idx : Int) : CallResult E :=
  { state := s, thrown := none, ret := DLReturn.v_int (s.getCoeff idx).toCKInt }

/-- The return type given to `convrev_getCoeff` in `CK_DLL_QUERY`. -/
def convrev_getCoeff_type : CKType := CKType.float

/-- The entry point `convrev_init`, registered as `"void"`. -/
def convrev_init (eng : Engine E) (s : ConvRev E) : CallResult E :=
  { state := s.init eng, thrown := none, ret := DLReturn.unset }

end EntryPoints

/-! ## Runs and reachable states -/

section Runs

variable {E : Type}

/-- The object before call number `n` (0-based) of `tick`, when the stream `x`
is fed from `s0`: call `j` receives `x j`. -/
def stateBefore (eng : Engine E) (x : Nat → Sample) (s0 : ConvRev E) : Nat → Option (ConvRev E)
  | 0 => some s0
  | n + 1 =>
    match stateBefore eng x s0 n with
    | none => none
    | some s =>
      match s.tick eng (x n) with
      | none => none
      | some r => some r.1

/-- The value returned by call number `n` (0-based) of `tick`. -/
def tickOut (eng : Engine E) (x : Nat → Sample) (s0 : ConvRev E) (n : Nat) : Option Sample :=
  match stateBefore eng x s0 n with
  | none => none
  | some s =>
    match s.tick eng (x n) with
    | none => none
    | some r => some r.2

/-- Input block number `k` of the stream for block size `B`: samples `k*B .. k*B+B-1`. -/
def inputBlock (x : Nat → Sample) (B k : Nat) : List Sample :=
  (List.range B).map (fun j => x (k * B + j))

/-- The engine state with which input block `k` is processed, when the engine is
run on the successive input blocks from state `e0`. -/
def engineState (eng : Engine E) (x : Nat → Sample) (B : Nat) (e0 : E) : Nat → E
  | 0 => e0
  | k + 1 => (eng.process (engineState eng x B e0 k) (inputBlock x B k)).1

/-- The output block the engine produces for input block `k`. -/
def engineOut (eng : Engine E) (x : Nat → Sample) (B : Nat) (e0 : E) (k : Nat) : List Sample :=
  (eng.process (engineState eng x B e0 k) (inputBlock x B k)).2

/-- States reachable from construction through the operations of the object. -/
inductive Reachable (eng : Engine E) : ConvRev E → Prop where
  | ctor (emscripten : Bool) (fs : CKFloat) : Reachable eng (ConvRev.ctor eng emscripten fs)
  | tick {s s' : ConvRev E} {x y : Sample} :
      Reachable eng s → s.tick eng x = some (s', y) → Reachable eng s'
  | setBlockSize {s : ConvRev E} {fuel : Nat} {p : CKFloat} {r : CallResult E} :
      Reachable eng s → convrev_setBlockSize fuel s p = some r → Reachable eng r.state
  | getBlockSize {s : ConvRev E} : Reachable eng s → Reachable eng (convrev_getBlockSize s).state
  | setOrder {s : ConvRev E} {m : Int} {r : CallResult E} :
      Reachable eng s → convrev_setOrder s m = some r → Reachable eng r.state
  | getOrder {s : ConvRev E} : Reachable eng s → Reachable eng (convrev_getOrder s).state
  | setCoeff {s : ConvRev E} (i : Int) (v : CKFloat) :
      Reachable eng s → Reachable eng (convrev_setCoeff s i v).state
  | getCoeff {s : ConvRev E} (i : Int) :
      Reachable eng s → Reachable eng (convrev_getCoeff s i).state
  | init {s : ConvRev E} : Reachable eng s → Reachable eng (convrev_init eng s).state

/-- A power of two. -/
def IsPow2 (n : Int) : Prop := ∃ k : Nat, n = 2 ^ k

/-- The scheduler invariant: cursor inside the block, block size a power of two
at least 32, both buffers as long as the block. -/
structure SchedInv (s : ConvRev E) : Prop where
  idx_lt : (s.idx : Int) < s.blocksize
  pow2 : IsPow2 s.blocksize
  ge32 : 32 ≤ s.blocksize
  len_in : (s.input_buffer.length : Int) = s.blocksize
  len_out : (s.output_buffer.length : Int) = s.blocksize

/-- What the output buffer holds while block `k` is being collected: the initial
buffer for `k = 0`, afterwards the engine output for block `k - 1`. -/
def playedBlock (eng : Engine E) (x : Nat → Sample) (B : Nat) (s0 : ConvRev E) : Nat → List Sample
  | 0 => s0.output_buffer
  | k + 1 => engineOut eng x B s0.convolver k

/-- The state of the scheduler when `i` samples of block `k` have been collected. -/
structure BlockInv (eng : Engine E) (x : Nat → Sample) (B : Nat) (s0 : ConvRev E)
    (k i : Nat) (s : ConvRev E) : Prop where
  idx_eq : s.idx = i
  bs_eq : s.blocksize = B
  in_len : s.input_buffer.length = B
  out_len : s.output_buffer.length = B
  conv_eq : s.convolver = engineState eng x B s0.convolver k
  inp_eq : ∀ j, j < i → s.input_buffer[j]? = some (x (k * B + j))
  out_eq : s.output_buffer = playedBlock eng x B s0 k
  frame_order : s.order = s0.order
  frame_ir : s.ir_buffer = s0.ir_buffer

/-- A block start: cursor at 0 and both buffers as long as the (positive) block size. -/
structure BlockStart (s : ConvRev E) (B : Nat) : Prop where
  idx_zero : s.idx = 0
  start_bs : s.blocksize = B
  pos : 0 < B
  start_in : s.input_buffer.length = B
  start_out : s.output_buffer.length = B

/-- A state in which `tick` may be called: cursor below the block size `B` and
both buffers of length `B`. -/
structure TickReady (s : ConvRev E) (B : Nat) : Prop where
  ready_bs : s.blocksize = B
  ready_idx : s.idx < B
  ready_in : s.input_buffer.length = B
  ready_out : s.output_buffer.length = B

/-- The engine `eng` instrumented with a counter of the calls of `process`. -/
def countingEngine (eng : Engine E) : Engine (E × Nat) where
  ctor := (eng.ctor, 0)
  init := fun e bs ir n => (eng.init e.1 bs ir n, e.2)
  process := fun e inp => (((eng.process e.1 inp).1, e.2 + 1), (eng.process e.1 inp).2)
  process_length := fun e inp => eng.process_length e.1 inp

/-- The impulse response has as many coefficients as the stored order. -/
def IRInv (s : ConvRev E) : Prop := (s.ir_buffer.length : Int) = s.order

/-- The rational `M` is the largest absolute value among the coefficients `qs`
(and `0` for the empty impulse response). -/
def IsPeakQ (qs : List ℚ) (M : ℚ) : Prop :=
  (∀ q ∈ qs, |q| ≤ M) ∧ ((∃ q ∈ qs, |q| = M) ∨ (qs = [] ∧ M = 0))

/-- The block size `b` is the smallest power of two not below `max(requested, 32)`. -/
def IsRoundedUp (requested : ℚ) (b : Int) : Prop :=
  IsPow2 b ∧ max requested 32 ≤ (b : ℚ) ∧
    ∀ b' : Int, IsPow2 b' → max requested 32 ≤ (b' : ℚ) → b ≤ b'

end Runs

/-! ## Concrete instances used to exercise the definitions -/

/-- An engine whose state is a log: `init` restarts the log with the impulse
response it is handed, `process` appends the input block and echoes it as output. -/
def echoEngine : Engine (List (List Sample)) where
  ctor := []
  init := fun _ _ ir _ => [ir]
  process := fun e inp => (e ++ [inp], inp)
  process_length := fun _ _ => rfl

/-- A freshly constructed object at 44.1 kHz (default block size 128). -/
def demoObj : ConvRev (List (List Sample)) :=
  ConvRev.ctor echoEngine false (CKFloat.finite 44100)

/-- An object holding the given impulse response, with matching order. -/
def demoWithIR (ir : List Sample) : ConvRev (List (List Sample)) :=
  { demoObj with order := ir.length, ir_buffer := ir }

/-- The object `s` as a request for block size 100 leaves it: block size 128,
zeroed buffers of that length, cursor 0. -/
def demoResized (s : ConvRev (List (List Sample))) : ConvRev (List (List Sample)) :=
  { s with
    blocksize := 128
    input_buffer := List.replicate 128 CKFloat.zero
    output_buffer := List.replicate 128 CKFloat.zero
    idx := 0 }

/-- An object built directly with block size 4 (below the floor of `setBlockSize`). -/
def demo4 : ConvRev (List (List Sample)) :=
  { demoObj with
    blocksize := 4
    input_buffer := List.replicate 4 CKFloat.zero
    output_buffer := List.replicate 4 CKFloat.zero }

/-- The input stream `1, 0, 0, 0, 1, 0, 0, 0` followed by zeros. -/
def impulses (n : Nat) : Sample :=
  [CKFloat.finite 1, CKFloat.zero, CKFloat.zero, CKFloat.zero,
   CKFloat.finite 1, CKFloat.zero, CKFloat.zero, CKFloat.zero].getD n CKFloat.zero

/-- The object `demo4` with the counting engine around the echo engine. -/
def demo4Counting : ConvRev (List (List Sample) × Nat) :=
  { SR := demo4.SR
    blocksize := demo4.blocksize
    order := demo4.order
    ir_buffer := demo4.ir_buffer
    input_buffer := demo4.input_buffer
    output_buffer := demo4.output_buffer
    convolver := (demo4.convolver, 0)
    idx := demo4.idx }

/-- The stream `impulses` with every sample after number 3 replaced by 7. -/
def impulsesThenSevens (n : Nat) : Sample :=
  if n ≤ 3 then impulses n else CKFloat.finite 7

/-- The input stream `0, 1, 2, ...`. -/
def rampInput (n : Nat) : Sample := CKFloat.finite n

/-! ## Block-level behaviour of `tick` -/

section TickBlocks

variable {E : Type}

theorem inputBlock_getElem? (x : Nat → Sample) (B k j : Nat) :
    (inputBlock x B k)[j]? = if j < B then some (x (k * B + j)) else none := by
  unfold inputBlock
  by_cases h : j < B
  · simp [h, List.getElem?_range]
  · simp [h]
    omega

theorem inputBlock_length (x : Nat → Sample) (B k : Nat) : (inputBlock x B k).length = B := by
  simp [inputBlock]

theorem engineOut_length (eng : Engine E) (x : Nat → Sample) (B : Nat) (e0 : E) (k : Nat) :
    (engineOut eng x B e0 k).length = B := by
  simp [engineOut, eng.process_length, inputBlock_length]

theorem BlockInv.tick_inner {eng : Engine E} {x : Nat → Sample} {B : Nat} {s0 s : ConvRev E}
    {k i : Nat} (h : BlockInv eng x B s0 k i s) (hi : i + 1 < B) :
    ∃ s' y, s.tick eng (x (k * B + i)) = some (s', y) ∧
      (playedBlock eng x B s0 k)[i]? = some y ∧ BlockInv eng x B s0 k (i + 1) s' := by
  have hlen_in := h.in_len
  have hlen_out := h.out_len
  have hidx := h.idx_eq
  have hbs := h.bs_eq
  have hiB : i < B := by omega
  have hio : i < s.output_buffer.length := by omega
  obtain ⟨y, hy⟩ : ∃ y, s.output_buffer[i]? = some y :=
    ⟨s.output_buffer[i], List.getElem?_eq_getElem hio⟩
  have hne : ¬ ((s.idx : Int) + 1 = s.blocksize) := by rw [hbs, hidx]; omega
  refine ⟨{ s with input_buffer := s.input_buffer.set i (x (k * B + i)), idx := i + 1 },
    y, ?_, ?_, ?_⟩
  · unfold ConvRev.tick
    rw [if_pos (by omega), hidx, hy]
    simp only []
    rw [hidx] at hne
    simp only [Nat.cast_add, Nat.cast_one, if_neg hne]
  · rw [← h.out_eq, hy]
  · refine ⟨rfl, hbs, by simpa using hlen_in, hlen_out, h.conv_eq, ?_, h.out_eq, h.frame_order,
      h.frame_ir⟩
    intro j hj
    simp only [List.getElem?_set]
    by_cases hji : i = j
    · subst hji
      simp
      omega
    · simp only [if_neg hji]
      exact h.inp_eq j (by omega)

theorem BlockInv.tick_last {eng : Engine E} {x : Nat → Sample} {B : Nat} {s0 s : ConvRev E}
    {k i : Nat} (h : BlockInv eng x B s0 k i s) (hi : i + 1 = B) :
    ∃ s' y, s.tick eng (x (k * B + i)) = some (s', y) ∧
      (playedBlock eng x B s0 k)[i]? = some y ∧ BlockInv eng x B s0 (k + 1) 0 s' := by
  have hlen_in := h.in_len
  have hlen_out := h.out_len
  have hidx := h.idx_eq
  have hbs := h.bs_eq
  have hiB : i < B := by omega
  have hio : i < s.output_buffer.length := by omega
  obtain ⟨y, hy⟩ : ∃ y, s.output_buffer[i]? = some y :=
    ⟨s.output_buffer[i], List.getElem?_eq_getElem hio⟩
  have heq : ((i : Int) + 1 = s.blocksize) := by rw [hbs]; omega
  have hblock : (s.input_buffer.set i (x (k * B + i))).take (i + 1) = inputBlock x B k := by
    apply List.ext_getElem?
    intro j
    rw [List.getElem?_take, inputBlock_getElem?, List.getElem?_set]
    by_cases hj : j < i + 1
    · have hjB : j < B := by omega
      rw [if_pos hj, if_pos hjB]
      by_cases hji : i = j
      · subst hji
        rw [if_pos rfl, if_pos (by omega)]
      · rw [if_neg hji]
        exact h.inp_eq j (by omega)
    · rw [if_neg hj, if_neg (by omega)]
  refine ⟨{ s with
      input_buffer := s.input_buffer.set i (x (k * B + i))
      output_buffer :=
        (eng.process s.convolver ((s.input_buffer.set i (x (k * B + i))).take (i + 1))).2 ++
          s.output_buffer.drop (i + 1)
      convolver :=
        (eng.process s.convolver ((s.input_buffer.set i (x (k * B + i))).take (i + 1))).1
      idx := 0 }, y, ?_, ?_, ?_⟩
  · unfold ConvRev.tick
    rw [if_pos (by omega), hidx, hy]
    simp only [Nat.cast_add, Nat.cast_one, if_pos heq]
  · rw [← h.out_eq, hy]
  · refine ⟨rfl, hbs, by simpa using hlen_in, ?_, ?_, ?_, ?_, h.frame_order, h.frame_ir⟩
    · simp only [List.length_append, List.length_drop, eng.process_length]
      simp only [List.length_take, List.length_set]
      omega
    · show (eng.process s.convolver _).1 = _
      rw [hblock, h.conv_eq]
      rfl
    · intro j hj
      omega
    · show (eng.process s.convolver _).2 ++ _ = _
      rw [hblock, h.conv_eq, List.drop_of_length_le (by omega), List.append_nil]
      rfl

theorem BlockStart.blockInv {s0 : ConvRev E} {B : Nat} (h : BlockStart s0 B)
    (eng : Engine E) (x : Nat → Sample) : BlockInv eng x B s0 0 0 s0 :=
  ⟨h.idx_zero, h.start_bs, h.start_in, h.start_out, rfl, fun j hj => absurd hj (Nat.not_lt_zero j),
    rfl, rfl, rfl⟩

theorem stateBefore_succ {eng : Engine E} {x : Nat → Sample} {s0 s s' : ConvRev E} {n : Nat}
    {y : Sample} (h : stateBefore eng x s0 n = some s) (ht : s.tick eng (x n) = some (s', y)) :
    stateBefore eng x s0 (n + 1) = some s' := by
  simp [stateBefore, h, ht]

theorem tickOut_of_state {eng : Engine E} {x : Nat → Sample} {s0 s s' : ConvRev E} {n : Nat}
    {y : Sample} (h : stateBefore eng x s0 n = some s) (ht : s.tick eng (x n) = some (s', y)) :
    tickOut eng x s0 n = some y := by
  simp [tickOut, h, ht]

/-- The run reaches sample `i` of block `k` in a state satisfying the block invariant. -/
theorem stateBefore_blockInv (eng : Engine E) (x : Nat → Sample) {s0 : ConvRev E} {B : Nat}
    (h0 : BlockStart s0 B) (k : Nat) :
    ∀ i, i < B → ∃ s, stateBefore eng x s0 (k * B + i) = some s ∧ BlockInv eng x B s0 k i s := by
  have hpos := h0.pos
  induction k with
  | zero =>
    intro i
    induction i with
    | zero =>
      intro _
      exact ⟨s0, by simp [stateBefore], h0.blockInv eng x⟩
    | succ i ih =>
      intro hi
      obtain ⟨s, hs, hinv⟩ := ih (by omega)
      obtain ⟨s', y, ht, _, hinv'⟩ := hinv.tick_inner hi
      exact ⟨s', by rw [← Nat.add_assoc]; exact stateBefore_succ hs ht, hinv'⟩
  | succ k ihk =>
    intro i
    induction i with
    | zero =>
      intro _
      obtain ⟨s, hs, hinv⟩ := ihk (B - 1) (by omega)
      obtain ⟨s', y, ht, _, hinv'⟩ := hinv.tick_last (by omega)
      refine ⟨s', ?_, hinv'⟩
      have he : (k + 1) * B + 0 = k * B + (B - 1) + 1 := by
        rw [Nat.add_mul]; omega
      rw [he]
      exact stateBefore_succ hs ht
    | succ i ih =>
      intro hi
      obtain ⟨s, hs, hinv⟩ := ih (by omega)
      obtain ⟨s', y, ht, _, hinv'⟩ := hinv.tick_inner hi
      exact ⟨s', by rw [← Nat.add_assoc]; exact stateBefore_succ hs ht, hinv'⟩

/-- Call `k * B + i` of `tick` plays element `i` of the block held while block `k` is collected. -/
theorem tickOut_playedBlock (eng : Engine E) (x : Nat → Sample) {s0 : ConvRev E} {B : Nat}
    (h0 : BlockStart s0 B) (k i : Nat) (hi : i < B) :
    ∃ y, tickOut eng x s0 (k * B + i) = some y ∧ (playedBlock eng x B s0 k)[i]? = some y := by
  obtain ⟨s, hs, hinv⟩ := stateBefore_blockInv eng x h0 k i hi
  by_cases hlast : i + 1 = B
  · obtain ⟨s', y, ht, hy, _⟩ := hinv.tick_last hlast
    exact ⟨y, tickOut_of_state hs ht, hy⟩
  · obtain ⟨s', y, ht, hy, _⟩ := hinv.tick_inner (by omega)
    exact ⟨y, tickOut_of_state hs ht, hy⟩

end TickBlocks

/-! ## The rounding loop of `setBlockSize` -/

section RoundLoop

theorem wrap32_of_range {n : Int} (h1 : -2 ^ 31 ≤ n) (h2 : n < 2 ^ 31) : wrap32 n = n := by
  unfold wrap32
  rw [Int.emod_eq_of_lt (by omega) (by omega)]
  omega

theorem pow2_le_of_le {j m : Nat} (h : j ≤ m) : (2 : Int) ^ j ≤ 2 ^ m :=
  pow_le_pow_right₀ (by norm_num) h

theorem pow2_pos (j : Nat) : (0 : Int) < 2 ^ j := by positivity

theorem roundLoop_zero_none (size : Int) (hs : 0 < size) :
    ∀ fuel, roundLoop fuel 0 size = none := by
  intro fuel
  induction fuel with
  | zero => rfl
  | succ f ih =>
    have hw : wrap32 (0 * 2) = 0 := by decide
    rw [roundLoop, if_pos hs, hw]
    exact ih

theorem roundLoop_min_none (size : Int) (hs : 0 < size) :
    ∀ fuel, roundLoop fuel (-2 ^ 31) size = none := by
  intro fuel
  cases fuel with
  | zero => rfl
  | succ f =>
    have hw : wrap32 (-2 ^ 31 * 2) = 0 := by decide
    rw [roundLoop, if_pos (by omega), hw]
    exact roundLoop_zero_none size hs f

/-- Above `2^30` the loop never ends: `p2` runs through `2^30`, `-2^31`, `0`, `0`, ... -/
theorem roundLoop_diverges (size : Int) (hs : 2 ^ 30 < size) :
    ∀ fuel j, j ≤ 30 → roundLoop fuel (2 ^ j) size = none := by
  intro fuel
  induction fuel with
  | zero => intro j _; rfl
  | succ f ih =>
    intro j hj
    have hle : (2 : Int) ^ j ≤ 2 ^ 30 := pow2_le_of_le hj
    rw [roundLoop, if_pos (by omega)]
    by_cases h30 : j = 30
    · subst h30
      have hw : wrap32 (2 ^ 30 * 2) = -2 ^ 31 := by decide
      rw [hw]
      exact roundLoop_min_none size (by omega) f
    · have hle' : (2 : Int) ^ (j + 1) ≤ 2 ^ 30 := pow2_le_of_le (by omega)
      have hpos := pow2_pos (j + 1)
      have hw : wrap32 (2 ^ j * 2) = 2 ^ (j + 1) := by
        rw [← pow_succ]
        exact wrap32_of_range (by omega) (by omega)
      rw [hw]
      exact ih (j + 1) (by omega)

/-- When the loop ends, started from `2^j`, it ends on the first power of two from
`2^j` on that is not below `size`, and that power is at most `2^30`. -/
theorem roundLoop_result (size : Int) (hs : 0 < size) :
    ∀ fuel j p2, j ≤ 30 → roundLoop fuel (2 ^ j) size = some p2 →
      ∃ m : Nat, j ≤ m ∧ m ≤ 30 ∧ p2 = 2 ^ m ∧ size ≤ 2 ^ m ∧
        ∀ m' : Nat, j ≤ m' → m' < m → (2 : Int) ^ m' < size := by
  intro fuel
  induction fuel with
  | zero => intro j p2 _ h; simp [roundLoop] at h
  | succ f ih =>
    intro j p2 hj h
    rw [roundLoop] at h
    by_cases hlt : (2 : Int) ^ j < size
    · rw [if_pos hlt] at h
      by_cases h30 : j = 30
      · subst h30
        have hw : wrap32 (2 ^ 30 * 2) = -2 ^ 31 := by decide
        rw [hw, roundLoop_min_none size hs f] at h
        cases h
      · have hle' : (2 : Int) ^ (j + 1) ≤ 2 ^ 30 := pow2_le_of_le (by omega)
        have hpos := pow2_pos (j + 1)
        have hw : wrap32 (2 ^ j * 2) = 2 ^ (j + 1) := by
          rw [← pow_succ]
          exact wrap32_of_range (by omega) (by omega)
        rw [hw] at h
        obtain ⟨m, hm1, hm2, hm3, hm4, hm5⟩ := ih (j + 1) p2 (by omega) h
        refine ⟨m, by omega, hm2, hm3, hm4, ?_⟩
        intro m' h1 h2
        by_cases hm' : m' = j
        · subst hm'; exact hlt
        · exact hm5 m' (by omega) h2
    · rw [if_neg hlt] at h
      cases h
      exact ⟨j, le_refl j, hj, rfl, by omega, fun m' h1 h2 => by omega⟩

/-- Up to `2^30` the loop ends within 32 tests. -/
theorem roundLoop_terminates (size : Int) (hs : size ≤ 2 ^ 30) :
    ∀ d j, j + d = 30 → ∀ fuel, d + 1 ≤ fuel → ∃ p2, roundLoop fuel (2 ^ j) size = some p2 := by
  intro d
  induction d with
  | zero =>
    intro j hj fuel hf
    obtain ⟨f, rfl⟩ : ∃ f, fuel = f + 1 := ⟨fuel - 1, by omega⟩
    have h30 : j = 30 := by omega
    subst h30
    exact ⟨2 ^ 30, by rw [roundLoop, if_neg (by omega)]⟩
  | succ d ih =>
    intro j hj fuel hf
    obtain ⟨f, rfl⟩ : ∃ f, fuel = f + 1 := ⟨fuel - 1, by omega⟩
    rw [roundLoop]
    by_cases hlt : (2 : Int) ^ j < size
    · rw [if_pos hlt]
      have hle' : (2 : Int) ^ (j + 1) ≤ 2 ^ 30 := pow2_le_of_le (by omega)
      have hpos := pow2_pos (j + 1)
      have hw : wrap32 (2 ^ j * 2) = 2 ^ (j + 1) := by
        rw [← pow_succ]
        exact wrap32_of_range (by omega) (by omega)
      rw [hw]
      exact ih (j + 1) (by omega) f (by omega)
    · rw [if_neg hlt]
      exact ⟨_, rfl⟩

end RoundLoop

/-! ## Effects of the configuration operations -/

section Config

variable {E : Type}

theorem vecResize_length {α : Type} (l : List α) (n : Nat) (v : α) :
    (vecResize l n v).length = n := by
  simp only [vecResize, List.length_append, List.length_take, List.length_replicate]
  omega

theorem vecFill_length {α : Type} (l : List α) (v : α) : (vecFill l v).length = l.length := by
  simp [vecFill]

theorem vecFill_resize {α : Type} (l : List α) (n : Nat) (v : α) :
    vecFill (vecResize l n v) v = List.replicate n v := by
  simp only [vecFill, vecResize_length]

theorem pow2_toNat (m : Nat) : ((2 : Int) ^ m).toNat = 2 ^ m := by
  have h : ((2 : Int) ^ m) = ((2 ^ m : Nat) : Int) := by push_cast; rfl
  rw [h, Int.toNat_ofNat]

/-- What a returning `setBlockSize` has done: the cast gave `n`, the loop ended on
the least power of two `2^m` not below `max n 32`, both buffers are `2^m` zeros
and the cursor is 0; nothing else has changed. -/
theorem setBlockSize_spec {fuel : Nat} {s s' : ConvRev E} {p r : CKFloat}
    (h : s.setBlockSize fuel p = some (s', r)) :
    ∃ (n : Int) (m : Nat), p.toInt32 = some n ∧ 5 ≤ m ∧ m ≤ 30 ∧ max n 32 ≤ 2 ^ m ∧
      (∀ m' : Nat, m' < m → (2 : Int) ^ m' < max n 32) ∧
      s' = { s with
             blocksize := 2 ^ m
             input_buffer := List.replicate (2 ^ m) CKFloat.zero
             output_buffer := List.replicate (2 ^ m) CKFloat.zero
             idx := 0 } ∧
      r = CKFloat.ofInt (2 ^ m) := by
  unfold ConvRev.setBlockSize at h
  cases hn : p.toInt32 with
  | none => simp [hn] at h
  | some n =>
    simp only [hn] at h
    have hsize : (if n < 32 then 32 else n) = max n 32 := by
      split <;> omega
    rw [hsize] at h
    cases hl : roundLoop fuel 1 (max n 32) with
    | none => simp [hl] at h
    | some p2 =>
      simp only [hl, Option.some.injEq, Prod.mk.injEq] at h
      have hl' : roundLoop fuel (2 ^ 0) (max n 32) = some p2 := by simpa using hl
      obtain ⟨m, _, hm30, hp2, hge, hmin⟩ := roundLoop_result (max n 32) (by omega) fuel 0 p2
        (by omega) hl'
      have hm5 : 5 ≤ m := by
        by_contra hc
        have h4 : (2 : Int) ^ m ≤ 2 ^ 4 := pow2_le_of_le (by omega)
        omega
      refine ⟨n, m, rfl, hm5, hm30, hge, fun m' hm' => hmin m' (Nat.zero_le _) hm', ?_, ?_⟩
      · rw [← h.1, hp2, vecFill_resize, vecFill_resize, pow2_toNat]
      · rw [← h.2, hp2]

/-- For a request whose cast is at most `2^30`, `setBlockSize` returns within 32 loop tests. -/
theorem setBlockSize_returns (s : ConvRev E) (p : CKFloat) (n : Int)
    (hn : p.toInt32 = some n) (hle : n ≤ 2 ^ 30) (fuel : Nat) (hf : 32 ≤ fuel) :
    ∃ s' r, s.setBlockSize fuel p = some (s', r) := by
  unfold ConvRev.setBlockSize
  simp only [hn]
  have hsize : (if n < 32 then 32 else n) = max n 32 := by
    split <;> omega
  rw [hsize]
  obtain ⟨p2, hp2⟩ := roundLoop_terminates (max n 32) (by omega) 30 0 (by omega) fuel (by omega)
  have hp2' : roundLoop fuel 1 (max n 32) = some p2 := by simpa using hp2
  rw [hp2']
  exact ⟨_, _, rfl⟩

/-- For a request whose cast exceeds `2^30`, `setBlockSize` never returns. -/
theorem setBlockSize_diverges (s : ConvRev E) (p : CKFloat) (n : Int)
    (hn : p.toInt32 = some n) (hgt : 2 ^ 30 < n) (fuel : Nat) :
    s.setBlockSize fuel p = none := by
  unfold ConvRev.setBlockSize
  simp only [hn]
  have hsize : (if n < 32 then 32 else n) = n := by
    split <;> omega
  rw [hsize]
  have h := roundLoop_diverges n hgt fuel 0 (by omega)
  have h' : roundLoop fuel 1 n = none := by simpa using h
  rw [h']

end Config

/-! ## Invariants of the reachable states -/

section Invariants

variable {E : Type}

theorem conditionIR_length (ir : List Sample) : (ConvRev.conditionIR ir).length = ir.length := by
  unfold ConvRev.conditionIR
  simp only []
  split <;> split <;> simp [vecFill_length]

theorem SchedInv.of_ctor (eng : Engine E) (emscripten : Bool) (fs : CKFloat) :
    SchedInv (ConvRev.ctor eng emscripten fs) := by
  cases emscripten
  · refine ⟨?_, ⟨7, ?_⟩, ?_, ?_, ?_⟩ <;>
      simp [ConvRev.ctor, vecResize_length, CONV_REV_BLOCKSIZE]
  · refine ⟨?_, ⟨9, ?_⟩, ?_, ?_, ?_⟩ <;>
      simp [ConvRev.ctor, vecResize_length, CONV_REV_BLOCKSIZE]

theorem SchedInv.tick_some (eng : Engine E) {s : ConvRev E} (h : SchedInv s) (x : Sample) :
    ∃ s' y, s.tick eng x = some (s', y) ∧ s.output_buffer[s.idx]? = some y ∧ SchedInv s' ∧
      s'.order = s.order ∧ s'.ir_buffer = s.ir_buffer ∧ s'.blocksize = s.blocksize := by
  have h1 := h.idx_lt
  have h2 := h.len_in
  have h3 := h.len_out
  have hio : s.idx < s.output_buffer.length := by omega
  have hy : s.output_buffer[s.idx]? = some s.output_buffer[s.idx] := List.getElem?_eq_getElem hio
  by_cases hb : ((s.idx : Int) + 1 = s.blocksize)
  · refine ⟨{ s with
        input_buffer := s.input_buffer.set s.idx x
        output_buffer :=
          (eng.process s.convolver ((s.input_buffer.set s.idx x).take (s.idx + 1))).2 ++
            s.output_buffer.drop (s.idx + 1)
        convolver := (eng.process s.convolver ((s.input_buffer.set s.idx x).take (s.idx + 1))).1
        idx := 0 }, s.output_buffer[s.idx], ?_, hy, ?_, rfl, rfl, rfl⟩
    · unfold ConvRev.tick
      rw [if_pos (by omega), hy]
      simp only [Nat.cast_add, Nat.cast_one, if_pos hb]
    · refine ⟨?_, h.pow2, h.ge32, ?_, ?_⟩
      · have := h.ge32
        show ((0 : Nat) : Int) < s.blocksize
        omega
      · show ((s.input_buffer.set s.idx x).length : Int) = s.blocksize
        rw [List.length_set]; exact h2
      · show ((_ ++ _ : List Sample).length : Int) = s.blocksize
        simp only [List.length_append, List.length_drop, eng.process_length, List.length_take,
          List.length_set]
        omega
  · refine ⟨{ s with input_buffer := s.input_buffer.set s.idx x, idx := s.idx + 1 },
      s.output_buffer[s.idx], ?_, hy, ?_, rfl, rfl, rfl⟩
    · unfold ConvRev.tick
      rw [if_pos (by omega), hy]
      simp only [Nat.cast_add, Nat.cast_one, if_neg hb]
    · refine ⟨?_, h.pow2, h.ge32, ?_, h3⟩
      · show ((s.idx + 1 : Nat) : Int) < s.blocksize
        omega
      · show ((s.input_buffer.set s.idx x).length : Int) = s.blocksize
        rw [List.length_set]; exact h2

theorem SchedInv.after_setBlockSize {fuel : Nat} {s s' : ConvRev E} {p r : CKFloat}
    (h : s.setBlockSize fuel p = some (s', r)) : SchedInv s' := by
  obtain ⟨n, m, _, hm5, _, _, _, hs', _⟩ := setBlockSize_spec h
  subst hs'
  have h32 : (2 : Int) ^ 5 ≤ 2 ^ m := pow2_le_of_le hm5
  refine ⟨?_, ⟨m, rfl⟩, ?_, ?_, ?_⟩
  · show ((0 : Nat) : Int) < 2 ^ m
    omega
  · show (32 : Int) ≤ 2 ^ m
    omega
  · show ((List.replicate (2 ^ m) CKFloat.zero).length : Int) = 2 ^ m
    simp
  · show ((List.replicate (2 ^ m) CKFloat.zero).length : Int) = 2 ^ m
    simp

theorem SchedInv.after_init (eng : Engine E) {s : ConvRev E} (h : SchedInv s) :
    SchedInv (s.init eng) := by
  refine ⟨?_, h.pow2, h.ge32, ?_, ?_⟩
  · have := h.ge32
    show ((0 : Nat) : Int) < s.blocksize
    omega
  · show ((vecFill s.input_buffer CKFloat.zero).length : Int) = s.blocksize
    rw [vecFill_length]; exact h.len_in
  · show ((vecFill s.output_buffer CKFloat.zero).length : Int) = s.blocksize
    rw [vecFill_length]; exact h.len_out

theorem SchedInv.of_frame {s s' : ConvRev E} (h : SchedInv s) (h1 : s'.idx = s.idx)
    (h2 : s'.blocksize = s.blocksize) (h3 : s'.input_buffer = s.input_buffer)
    (h4 : s'.output_buffer = s.output_buffer) : SchedInv s' :=
  ⟨by rw [h1, h2]; exact h.idx_lt, by rw [h2]; exact h.pow2, by rw [h2]; exact h.ge32,
    by rw [h2, h3]; exact h.len_in, by rw [h2, h4]; exact h.len_out⟩

theorem convrev_setOrder_cases {s : ConvRev E} {m : Int} {r : CallResult E}
    (h : convrev_setOrder s m = some r) :
    (m < 0 ∧ r.state = s ∧ r.thrown = some "InvalidArgument") ∨
    (0 ≤ m ∧ r.thrown = none ∧
      r.state = { s with order := m, ir_buffer := vecResize s.ir_buffer m.toNat CKFloat.zero }) := by
  unfold convrev_setOrder at h
  by_cases hm : m < 0
  · rw [if_pos hm] at h
    cases h
    exact Or.inl ⟨hm, rfl, rfl⟩
  · rw [if_neg hm] at h
    simp only [ConvRev.setOrder, if_neg hm, Option.some.injEq] at h
    subst h
    exact Or.inr ⟨by omega, rfl, rfl⟩

theorem convrev_setCoeff_state (s : ConvRev E) (i : Int) (v : CKFloat) :
    (convrev_setCoeff s i v).state = s ∨
    (0 ≤ i ∧ i < s.order ∧ (convrev_setCoeff s i v).state = s.setCoeff i v) := by
  unfold convrev_setCoeff
  by_cases h : i ≥ s.getOrder ∨ i < 0
  · rw [if_pos h]; exact Or.inl rfl
  · rw [if_neg h]
    simp only [ConvRev.getOrder] at h
    exact Or.inr ⟨by omega, by omega, rfl⟩

theorem setCoeff_frame (s : ConvRev E) (i : Int) (v : CKFloat) :
    (s.setCoeff i v).idx = s.idx ∧ (s.setCoeff i v).blocksize = s.blocksize ∧
    (s.setCoeff i v).input_buffer = s.input_buffer ∧
    (s.setCoeff i v).output_buffer = s.output_buffer ∧
    (s.setCoeff i v).order = s.order ∧
    (s.setCoeff i v).ir_buffer.length = s.ir_buffer.length := by
  unfold ConvRev.setCoeff
  split
  · simp
  · simp

/-- Every reachable state satisfies the scheduler invariant, and its impulse
response has as many coefficients as the stored order. -/
theorem reachable_inv {eng : Engine E} {s : ConvRev E} (h : Reachable eng s) :
    SchedInv s ∧ IRInv s := by
  induction h with
  | ctor em fs => exact ⟨SchedInv.of_ctor eng em fs, by simp [IRInv, ConvRev.ctor]⟩
  | @tick s s' x y _ ht ih =>
    obtain ⟨s'', y', ht', _, hinv, ho, hir, _⟩ := ih.1.tick_some eng x
    rw [ht] at ht'
    cases ht'
    exact ⟨hinv, by unfold IRInv; rw [ho, hir]; exact ih.2⟩
  | @setBlockSize s fuel p r _ hr ih =>
    unfold convrev_setBlockSize at hr
    cases hsb : s.setBlockSize fuel p with
    | none => simp [hsb] at hr
    | some res =>
      obtain ⟨s', v⟩ := res
      simp only [hsb, Option.some.injEq] at hr
      subst hr
      refine ⟨SchedInv.after_setBlockSize hsb, ?_⟩
      obtain ⟨n, m, _, _, _, _, _, hs', _⟩ := setBlockSize_spec hsb
      subst hs'
      exact ih.2
  | getBlockSize _ ih => exact ih
  | @setOrder s m r _ hr ih =>
    rcases convrev_setOrder_cases hr with ⟨_, hs, _⟩ | ⟨hm, _, hs⟩
    · rw [hs]; exact ih
    · rw [hs]
      refine ⟨ih.1.of_frame rfl rfl rfl rfl, ?_⟩
      show ((vecResize s.ir_buffer m.toNat CKFloat.zero).length : Int) = m
      rw [vecResize_length]
      omega
  | getOrder _ ih => exact ih
  | @setCoeff s i v _ ih =>
    rcases convrev_setCoeff_state s i v with hs | ⟨_, _, hs⟩
    · rw [hs]; exact ih
    · rw [hs]
      obtain ⟨f1, f2, f3, f4, f5, f6⟩ := setCoeff_frame s i v
      refine ⟨ih.1.of_frame f1 f2 f3 f4, ?_⟩
      unfold IRInv
      rw [f5, f6]
      exact ih.2
  | getCoeff i _ ih => exact ih
  | @init s _ ih =>
    refine ⟨ih.1.after_init eng, ?_⟩
    show ((ConvRev.conditionIR s.ir_buffer).length : Int) = s.order
    rw [conditionIR_length]
    exact ih.2

end Invariants

/-! ## The IR conditioner -/

section Conditioner

open CKFloat

theorem hasPoly_map_finite (qs : List ℚ) : ConvRev.hasPoly (qs.map finite) = false := by
  simp [ConvRev.hasPoly, isnan, isinf]

theorem hasPoly_eq_true_iff (ir : List Sample) :
    ConvRev.hasPoly ir = true ↔ ∃ c ∈ ir, c.isnan = true ∨ c.isinf = true := by
  simp [ConvRev.hasPoly]

theorem eq_map_finite_of_hasPoly_false (ir : List Sample) (h : ConvRev.hasPoly ir = false) :
    ∃ qs : List ℚ, ir = qs.map finite := by
  induction ir with
  | nil => exact ⟨[], rfl⟩
  | cons c rest ih =>
    simp only [ConvRev.hasPoly, List.any_cons, Bool.or_eq_false_iff] at h
    obtain ⟨qs, hqs⟩ := ih (by simpa [ConvRev.hasPoly] using h.2)
    cases c with
    | finite q => exact ⟨q :: qs, by rw [hqs]; rfl⟩
    | posInf => simp [isinf] at h
    | negInf => simp [isinf] at h
    | nan => simp [isnan] at h

/-- The running maximum over finite coefficients, from a non-negative start. -/
theorem maxVal_fold_finite (qs : List ℚ) :
    ∀ acc : ℚ, ∃ M : ℚ,
      (qs.map finite).foldl (fun max_val f => if f.abs.gt max_val then f.abs else max_val)
        (finite acc) = finite M ∧
      acc ≤ M ∧ (∀ q ∈ qs, |q| ≤ M) ∧ (M = acc ∨ ∃ q ∈ qs, |q| = M) := by
  induction qs with
  | nil => intro acc; exact ⟨acc, rfl, le_refl _, by simp, Or.inl rfl⟩
  | cons q rest ih =>
    intro acc
    simp only [List.map_cons, List.foldl_cons, CKFloat.abs, CKFloat.gt]
    by_cases hlt : acc < |q|
    · simp only [hlt, decide_True, if_true]
      obtain ⟨M, h1, h2, h3, h4⟩ := ih |q|
      refine ⟨M, h1, le_trans (le_of_lt hlt) h2, ?_, ?_⟩
      · intro q' hq'
        rcases List.mem_cons.mp hq' with rfl | hmem
        · exact h2
        · exact h3 q' hmem
      · rcases h4 with h4 | ⟨q', hq', he⟩
        · exact Or.inr ⟨q, List.mem_cons_self _ _, h4.symm⟩
        · exact Or.inr ⟨q', List.mem_cons_of_mem _ hq', he⟩
    · simp only [hlt, decide_False, Bool.false_eq_true, if_false]
      obtain ⟨M, h1, h2, h3, h4⟩ := ih acc
      refine ⟨M, h1, h2, ?_, ?_⟩
      · intro q' hq'
        rcases List.mem_cons.mp hq' with rfl | hmem
        · exact le_trans (not_lt.mp hlt) h2
        · exact h3 q' hmem
      · rcases h4 with h4 | ⟨q', hq', he⟩
        · exact Or.inl h4
        · exact Or.inr ⟨q', List.mem_cons_of_mem _ hq', he⟩

theorem IsPeakQ.unique {qs : List ℚ} {M M' : ℚ} (h : IsPeakQ qs M) (h' : IsPeakQ qs M') :
    M = M' := by
  rcases h.2 with ⟨q, hq, he⟩ | ⟨hnil, h0⟩
  · rcases h'.2 with ⟨q', hq', he'⟩ | ⟨hnil', _⟩
    · have a := h'.1 q hq
      have b := h.1 q' hq'
      rw [he] at a
      rw [he'] at b
      exact le_antisymm a b
    · rw [hnil'] at hq; simp at hq
  · rcases h'.2 with ⟨q', hq', _⟩ | ⟨_, h0'⟩
    · rw [hnil] at hq'; simp at hq'
    · rw [h0, h0']

/-- On finite coefficients `max_val` is the largest absolute coefficient (0 for the empty IR). -/
theorem maxVal_map_finite (qs : List ℚ) :
    ∃ M : ℚ, ConvRev.maxVal (qs.map finite) = finite M ∧ IsPeakQ qs M := by
  obtain ⟨M, h1, h2, h3, h4⟩ := maxVal_fold_finite qs 0
  refine ⟨M, h1, h3, ?_⟩
  rcases h4 with h4 | h4
  · cases qs with
    | nil => exact Or.inr ⟨rfl, h4⟩
    | cons q rest =>
      have hq := h3 q (List.mem_cons_self _ _)
      have : |q| = M := le_antisymm hq (by rw [h4]; exact abs_nonneg q)
      exact Or.inl ⟨q, List.mem_cons_self _ _, this⟩
  · exact Or.inl h4

theorem maxVal_of_peak {qs : List ℚ} {M : ℚ} (h : IsPeakQ qs M) :
    ConvRev.maxVal (qs.map finite) = finite M := by
  obtain ⟨M', h1, h2⟩ := maxVal_map_finite qs
  rw [h1, h.unique h2]

theorem IsPeakQ.nonneg {qs : List ℚ} {M : ℚ} (h : IsPeakQ qs M) : 0 ≤ M := by
  rcases h.2 with ⟨q, _, he⟩ | ⟨_, h0⟩
  · rw [← he]; exact abs_nonneg q
  · rw [h0]

/-- The conditioner on finite coefficients with peak `M`. -/
theorem conditionIR_finite {qs : List ℚ} {M : ℚ} (h : IsPeakQ qs M) :
    ConvRev.conditionIR (qs.map finite) =
      if 1 / 1000000 < M then qs.map (fun q => finite (q * (1 / 2 / M)))
      else qs.map finite := by
  unfold ConvRev.conditionIR
  simp only [hasPoly_map_finite, Bool.false_eq_true, if_false, maxVal_of_peak h,
    ConvRev.peakThreshold, CKFloat.gt, decide_eq_true_eq]
  by_cases hM : 1 / 1000000 < M
  · have hne : M ≠ 0 := by
      intro h0; rw [h0] at hM; norm_num at hM
    simp only [hM, if_true, ConvRev.half, CKFloat.div, if_neg hne, List.map_map]
    apply List.map_congr_left
    intro q _
    simp [CKFloat.mul]
  · simp only [hM, if_false]

/-- Scaling by `0.5 / M` brings the peak to exactly `0.5`. -/
theorem IsPeakQ.scaled {qs : List ℚ} {M : ℚ} (h : IsPeakQ qs M) (hM : 0 < M) :
    IsPeakQ (qs.map (fun q => q * (1 / 2 / M))) (1 / 2) := by
  have key : ∀ q : ℚ, |q * (1 / 2 / M)| = |q| / M * (1 / 2) := by
    intro q
    rw [abs_mul, abs_of_pos (by positivity : (0 : ℚ) < 1 / 2 / M)]
    ring
  constructor
  · intro q' hq'
    obtain ⟨q, hq, rfl⟩ := List.mem_map.mp hq'
    rw [key]
    have : |q| / M ≤ 1 := (div_le_one hM).mpr (h.1 q hq)
    linarith
  · rcases h.2 with ⟨q, hq, he⟩ | ⟨_, h0⟩
    · refine Or.inl ⟨q * (1 / 2 / M), List.mem_map.mpr ⟨q, hq, rfl⟩, ?_⟩
      rw [key, he, div_self (ne_of_gt hM)]
      norm_num
    · rw [h0] at hM
      exact absurd hM (lt_irrefl 0)

theorem maxVal_replicate_zero (n : Nat) :
    ConvRev.maxVal (List.replicate n CKFloat.zero) = CKFloat.zero := by
  unfold ConvRev.maxVal
  induction n with
  | zero => rfl
  | succ n ih =>
    simp only [List.replicate_succ, List.foldl_cons]
    have : (CKFloat.zero.abs.gt CKFloat.zero) = false := by
      simp [CKFloat.zero, CKFloat.abs, CKFloat.gt]
    rw [this]
    simpa using ih

/-- The conditioner on an IR with a NaN or infinite coefficient: all zeros. -/
theorem conditionIR_scrub (ir : List Sample) (h : ConvRev.hasPoly ir = true) :
    ConvRev.conditionIR ir = List.replicate ir.length CKFloat.zero := by
  unfold ConvRev.conditionIR
  simp only [h, if_true, vecFill, maxVal_replicate_zero]
  have : CKFloat.zero.gt ConvRev.peakThreshold = false := by
    simp [CKFloat.zero, ConvRev.peakThreshold, CKFloat.gt]
  rw [this]
  simp

/-- Every conditioned coefficient is finite and of absolute value at most `0.5`. -/
theorem conditionIR_bounded (ir : List Sample) :
    ∀ c ∈ ConvRev.conditionIR ir, ∃ q : ℚ, c = finite q ∧ |q| ≤ 1 / 2 := by
  intro c hc
  cases hp : ConvRev.hasPoly ir with
  | true =>
    rw [conditionIR_scrub ir hp] at hc
    have := List.eq_of_mem_replicate hc
    exact ⟨0, this, by norm_num⟩
  | false =>
    obtain ⟨qs, rfl⟩ := eq_map_finite_of_hasPoly_false ir hp
    obtain ⟨M, _, hM⟩ := maxVal_map_finite qs
    rw [conditionIR_finite hM] at hc
    by_cases hlt : 1 / 1000000 < M
    · rw [if_pos hlt] at hc
      obtain ⟨q, hq, rfl⟩ := List.mem_map.mp hc
      have hpos : 0 < M := lt_trans (by norm_num) hlt
      have hs := (hM.scaled hpos).1 (q * (1 / 2 / M)) (List.mem_map.mpr ⟨q, hq, rfl⟩)
      exact ⟨_, rfl, hs⟩
    · rw [if_neg hlt] at hc
      obtain ⟨q, hq, rfl⟩ := List.mem_map.mp hc
      have := hM.1 q hq
      exact ⟨q, rfl, by linarith [not_lt.mp hlt]⟩

end Conditioner

/-! ## Properties of the scheduler -/

section SchedulerClaims

variable {E : Type}

/-- From a block start with an all-zero output buffer, the first `B` calls return 0. -/
theorem silence_of_zero_block (eng : Engine E) (x : Nat → Sample) {s0 : ConvRev E} {B : Nat}
    (h0 : BlockStart s0 B) (hz : s0.output_buffer = List.replicate B CKFloat.zero)
    (n : Nat) (hn : n < B) : tickOut eng x s0 n = some CKFloat.zero := by
  obtain ⟨y, hy, hp⟩ := tickOut_playedBlock eng x h0 0 n hn
  rw [Nat.zero_mul, Nat.zero_add] at hy
  rw [hy]
  simp only [playedBlock, hz] at hp
  rw [List.getElem?_replicate, if_pos hn] at hp
  rw [← hp]

theorem SchedInv.blockStart_of_zero {s : ConvRev E} (h : SchedInv s) (hz : s.idx = 0) :
    BlockStart s s.blocksize.toNat := by
  have h32 := h.ge32
  have hin := h.len_in
  have hout := h.len_out
  exact ⟨hz, by omega, by omega, by omega, by omega⟩

/-- C1. One-block latency. From a block start with block size `B`, for `k >= 1`
and `i < B`: call `k*B - 1` of `tick` invokes the engine on exactly the inputs
`(k-1)*B .. k*B-1` in arrival order, the engine's output block becomes the output
buffer, and call `k*B + i` returns element `i` of that block. -/
theorem tick_one_block_latency (eng : Engine E) (x : Nat → Sample) (s0 : ConvRev E) (B : Nat)
    (h0 : BlockStart s0 B) (k i : Nat) (hk : 1 ≤ k) (hi : i < B) :
    ∃ (sCall sNext : ConvRev E) (y0 y : Sample),
      stateBefore eng x s0 (k * B - 1) = some sCall ∧
      sCall.tick eng (x (k * B - 1)) = some (sNext, y0) ∧
      sNext.convolver =
        (eng.process sCall.convolver ((List.range B).map (fun j => x ((k - 1) * B + j)))).1 ∧
      sNext.output_buffer =
        (eng.process sCall.convolver ((List.range B).map (fun j => x ((k - 1) * B + j)))).2 ∧
      stateBefore eng x s0 (k * B) = some sNext ∧
      tickOut eng x s0 (k * B + i) = some y ∧
      sNext.output_buffer[i]? = some y := by
  obtain ⟨k', rfl⟩ : ∃ k', k = k' + 1 := ⟨k - 1, by omega⟩
  have hpos := h0.pos
  have hidx : (k' + 1) * B - 1 = k' * B + (B - 1) := by
    rw [Nat.add_mul]; omega
  obtain ⟨sCall, hs, hinv⟩ := stateBefore_blockInv eng x h0 k' (B - 1) (by omega)
  obtain ⟨sNext, y0, ht, _, hinv'⟩ := hinv.tick_last (by omega)
  obtain ⟨y, hy, hp⟩ := tickOut_playedBlock eng x h0 (k' + 1) i hi
  have hnext : stateBefore eng x s0 ((k' + 1) * B) = some sNext := by
    have he : (k' + 1) * B = k' * B + (B - 1) + 1 := by rw [Nat.add_mul]; omega
    rw [he]
    exact stateBefore_succ hs ht
  refine ⟨sCall, sNext, y0, y, by rw [hidx]; exact hs, by rw [hidx]; exact ht, ?_, ?_, hnext, hy, ?_⟩
  · rw [hinv'.conv_eq, hinv.conv_eq]
    rfl
  · rw [hinv'.out_eq, hinv.conv_eq]
    rfl
  · rw [hinv'.out_eq]
    exact hp

/-- Witness for C1 on an object with block size 4 and the echo engine, fed
`1, 0, 0, 0, 1, 0, 0, 0`: call 4 returns element 0 of the block produced from
inputs `0 .. 3`; the eight outputs are `0, 0, 0, 0, 1, 0, 0, 0`. -/
theorem tick_one_block_latency_witness :
    BlockStart demo4 4 ∧
    (∃ (sCall sNext : ConvRev (List (List Sample))) (y0 y : Sample),
      stateBefore echoEngine impulses demo4 (1 * 4 - 1) = some sCall ∧
      sCall.tick echoEngine (impulses (1 * 4 - 1)) = some (sNext, y0) ∧
      sNext.convolver =
        (echoEngine.process sCall.convolver
          ((List.range 4).map (fun j => impulses ((1 - 1) * 4 + j)))).1 ∧
      sNext.output_buffer =
        (echoEngine.process sCall.convolver
          ((List.range 4).map (fun j => impulses ((1 - 1) * 4 + j)))).2 ∧
      stateBefore echoEngine impulses demo4 (1 * 4) = some sNext ∧
      tickOut echoEngine impulses demo4 (1 * 4 + 0) = some y ∧
      sNext.output_buffer[0]? = some y) ∧
    (List.range 8).map (tickOut echoEngine impulses demo4) =
      [some CKFloat.zero, some CKFloat.zero, some CKFloat.zero, some CKFloat.zero,
       some (CKFloat.finite 1), some CKFloat.zero, some CKFloat.zero, some CKFloat.zero] :=
  have hb : BlockStart demo4 4 := ⟨rfl, rfl, by decide, rfl, rfl⟩
  ⟨hb, tick_one_block_latency echoEngine impulses demo4 4 hb 1 0 (by decide) (by decide), rfl⟩

/-- C2. Initial silence. Right after construction, after a returning
`setBlockSize`, and after `init` on a reachable object, every one of the first
`blockSize` calls of `tick` returns 0, whatever the inputs and the engine. -/
theorem initial_silence (eng : Engine E) (x : Nat → Sample) (n : Nat) :
    (∀ emscripten fs, (n : Int) < (ConvRev.ctor eng emscripten fs).blocksize →
      tickOut eng x (ConvRev.ctor eng emscripten fs) n = some CKFloat.zero) ∧
    (∀ fuel (s s' : ConvRev E) p r, s.setBlockSize fuel p = some (s', r) →
      (n : Int) < s'.blocksize → tickOut eng x s' n = some CKFloat.zero) ∧
    (∀ s : ConvRev E, Reachable eng s → (n : Int) < (s.init eng).blocksize →
      tickOut eng x (s.init eng) n = some CKFloat.zero) := by
  refine ⟨?_, ?_, ?_⟩
  · intro em fs hn
    have hinv := SchedInv.of_ctor eng em fs
    have hb := hinv.blockStart_of_zero rfl
    refine silence_of_zero_block eng x hb ?_ n (by omega)
    simp [ConvRev.ctor, vecResize]
  · intro fuel s s' p r h hn
    have hinv := SchedInv.after_setBlockSize h
    obtain ⟨_, m, _, _, _, _, _, hs', _⟩ := setBlockSize_spec h
    have hb := hinv.blockStart_of_zero (by rw [hs'])
    refine silence_of_zero_block eng x hb ?_ n (by omega)
    rw [hs']
    show List.replicate (2 ^ m) CKFloat.zero = List.replicate ((2 : Int) ^ m).toNat CKFloat.zero
    rw [pow2_toNat]
  · intro s hr hn
    have hinv := (reachable_inv hr).1
    have hinv' := hinv.after_init eng
    have hb := hinv'.blockStart_of_zero rfl
    refine silence_of_zero_block eng x hb ?_ n (by omega)
    show vecFill s.output_buffer CKFloat.zero = List.replicate s.blocksize.toNat CKFloat.zero
    have := hinv.len_out
    unfold vecFill
    congr 1
    omega

/-- Witness for C2: call number 5 returns 0 after construction, after
`setBlockSize(100)` and after `init`. -/
theorem initial_silence_witness :
    tickOut echoEngine rampInput demoObj 5 = some CKFloat.zero ∧
    demoObj.setBlockSize 32 (CKFloat.finite 100) =
      some (demoResized demoObj, CKFloat.finite 128) ∧
    tickOut echoEngine rampInput (demoResized demoObj) 5 = some CKFloat.zero ∧
    tickOut echoEngine rampInput (demoObj.init echoEngine) 5 = some CKFloat.zero :=
  have he : demoObj.setBlockSize 32 (CKFloat.finite 100) =
      some (demoResized demoObj, CKFloat.finite 128) := by
    simp [ConvRev.setBlockSize, CKFloat.toInt32, CKFloat.truncQ, roundLoop, wrap32,
      CKFloat.ofInt, vecFill, vecResize_length, demoResized]
  ⟨(initial_silence echoEngine rampInput 5).1 false (CKFloat.finite 44100) (by decide),
    he,
    (initial_silence echoEngine rampInput 5).2.1 32 demoObj _ (CKFloat.finite 100)
      (CKFloat.finite 128) he (by decide),
    (initial_silence echoEngine rampInput 5).2.2 demoObj
      (Reachable.ctor false (CKFloat.finite 44100)) (by decide)⟩

end SchedulerClaims

/-! ## Properties of `setBlockSize` and the scheduler invariant -/

section BlockSizeClaims

variable {E : Type}

open CKFloat

theorem toInt32_finite {q : ℚ} (hlo : -2 ^ 31 ≤ truncQ q) (hhi : truncQ q < 2 ^ 31) :
    (finite q).toInt32 = some (truncQ q) := by
  simp only [toInt32]
  rw [if_pos ⟨hlo, hhi⟩]

/-- The least power of two found by the loop is the rounded-up block size. -/
theorem isRoundedUp_of_loop {n : Int} {m : Nat} (hge : max n 32 ≤ 2 ^ m)
    (hmin : ∀ m' : Nat, m' < m → (2 : Int) ^ m' < max n 32) :
    IsRoundedUp (n : ℚ) (2 ^ m) := by
  have hcast : max (n : ℚ) 32 = ((max n 32 : Int) : ℚ) := by
    rw [Int.cast_max]; norm_num
  refine ⟨⟨m, rfl⟩, ?_, ?_⟩
  · rw [hcast]
    exact_mod_cast hge
  · intro b' hb' hle
    obtain ⟨j, rfl⟩ := hb'
    rw [hcast] at hle
    have hle' : max n 32 ≤ (2 : Int) ^ j := by exact_mod_cast hle
    by_contra hc
    have hjm : j < m := by
      by_contra hjm
      exact hc (pow2_le_of_le (by omega))
    have := hmin j hjm
    omega

/-- C3 (the code at the failing input). For the request `2^30 + 1 = 1073741825`
the rounding loop never ends (`p2` goes `2^30`, `-2^31`, `0`, `0`, ...): with
whatever number of loop tests, `setBlockSize` yields no block size, so
`getBlockSize` has no power of two to report after it. -/
theorem setBlockSize_request_above_2pow30_never_returns (s : ConvRev E) (fuel : Nat) :
    (1073741825 : Int) = 2 ^ 30 + 1 ∧
    (finite 1073741825).toInt32 = some 1073741825 ∧
    s.setBlockSize fuel (finite 1073741825) = none := by
  have h : (finite 1073741825).toInt32 = some 1073741825 := by
    simp [toInt32, truncQ]
  exact ⟨by norm_num, h, setBlockSize_diverges s _ 1073741825 h (by norm_num) fuel⟩

/-- C4 (counterexample). The request `64.5` is cast to `64` first, so the block
size set is `64`, which is below the request: not the smallest power of two that
is at least `max(requested, 32)`. -/
theorem setBlockSize_fractional_request_not_rounded_up :
    (demoObj.setBlockSize 32 (finite (129 / 2))).map (fun r => (r.1.blocksize, r.2)) =
      some (64, ofInt 64) ∧
    ¬ IsRoundedUp (129 / 2) 64 := by
  have ht : truncQ (129 / 2) = 64 := by
    simp [truncQ]; norm_num
  have hi : (finite (129 / 2)).toInt32 = some 64 := by
    rw [toInt32_finite (by rw [ht]; norm_num) (by rw [ht]; norm_num), ht]
  constructor
  · simp [ConvRev.setBlockSize, hi, roundLoop, wrap32]
  · intro h
    have := h.2.1
    norm_num at this

/-- C4 (amended). For a request `q` whose truncation toward zero `n` is a 32-bit
`int` with `n <= 2^30`, `setBlockSize` returns (within 32 loop tests) the smallest
power of two that is at least `max(n, 32)`, and `getBlockSize` returns the same
value afterwards. -/
theorem setBlockSize_rounds_up_truncated (s : ConvRev E) (q : ℚ)
    (hlo : -2 ^ 31 ≤ truncQ q) (hhi : truncQ q ≤ 2 ^ 30) (fuel : Nat) (hf : 32 ≤ fuel) :
    ∃ s' b, s.setBlockSize fuel (finite q) = some (s', ofInt b) ∧
      IsRoundedUp (truncQ q : ℚ) b ∧ s'.getBlockSize = ofInt b := by
  have hi := toInt32_finite hlo (by omega : truncQ q < 2 ^ 31)
  obtain ⟨s', r, h⟩ := setBlockSize_returns s (finite q) (truncQ q) hi hhi fuel hf
  obtain ⟨n, m, hn, _, _, hge, hmin, hs', hr⟩ := setBlockSize_spec h
  rw [hi] at hn
  cases hn
  refine ⟨s', 2 ^ m, by rw [h, hr], isRoundedUp_of_loop hge hmin, ?_⟩
  rw [hs']
  rfl

/-- Witness for C4 (amended): the requests `100` and `128` both give `128`. -/
theorem setBlockSize_rounds_up_truncated_witness :
    (∃ s' b, demoObj.setBlockSize 32 (finite 100) = some (s', ofInt b) ∧
      IsRoundedUp (truncQ 100 : ℚ) b ∧ s'.getBlockSize = ofInt b) ∧
    (demoObj.setBlockSize 32 (finite 100)).map (fun r => r.2) = some (finite 128) ∧
    (demoObj.setBlockSize 32 (finite 128)).map (fun r => r.2) = some (finite 128) :=
  ⟨setBlockSize_rounds_up_truncated demoObj 100 (by simp [truncQ]) (by simp [truncQ]) 32
      (le_refl 32),
    by simp [ConvRev.setBlockSize, toInt32, truncQ, roundLoop, wrap32, ofInt],
    by simp [ConvRev.setBlockSize, toInt32, truncQ, roundLoop, wrap32, ofInt]⟩

/-- C5. Scheduler invariant. In every reachable state the cursor is below the
block size, the block size is a power of two at least 32, both buffers are as
long as the block size, and `tick` finds its buffer accesses in bounds. -/
theorem scheduler_invariant (eng : Engine E) (s : ConvRev E) (h : Reachable eng s) :
    (s.idx : Int) < s.blocksize ∧ IsPow2 s.blocksize ∧ 32 ≤ s.blocksize ∧
    (s.input_buffer.length : Int) = s.blocksize ∧
    (s.output_buffer.length : Int) = s.blocksize ∧
    ∀ x, ∃ s' y, s.tick eng x = some (s', y) := by
  have hinv := (reachable_inv h).1
  refine ⟨hinv.idx_lt, hinv.pow2, hinv.ge32, hinv.len_in, hinv.len_out, ?_⟩
  intro x
  obtain ⟨s', y, ht, _⟩ := hinv.tick_some eng x
  exact ⟨s', y, ht⟩

/-- Witness for C5: the state reached by construction, `init` and a coefficient write. -/
theorem scheduler_invariant_witness :
    Reachable echoEngine (convrev_setCoeff (convrev_init echoEngine demoObj).state 0 ConvRev.half).state ∧
    ((convrev_setCoeff (convrev_init echoEngine demoObj).state 0 ConvRev.half).state.idx : Int) <
      (convrev_setCoeff (convrev_init echoEngine demoObj).state 0 ConvRev.half).state.blocksize :=
  have hr : Reachable echoEngine
      (convrev_setCoeff (convrev_init echoEngine demoObj).state 0 ConvRev.half).state :=
    Reachable.setCoeff 0 ConvRev.half (Reachable.init (Reachable.ctor false (finite 44100)))
  ⟨hr, (scheduler_invariant echoEngine _ hr).1⟩

/-- C6. Effect and frame of `setBlockSize`. Whenever the call returns, both
buffers consist of exactly `blockSize` zeros and the cursor is 0, while the
order, the impulse response, the engine state and the sample rate are as before;
and the call does return whenever the cast request is at most `2^30`. -/
theorem setBlockSize_effect_frame (s : ConvRev E) (p : CKFloat) :
    (∀ fuel s' r, s.setBlockSize fuel p = some (s', r) →
      ∃ b : Nat, s'.blocksize = b ∧ r = ofInt b ∧
        s'.input_buffer = List.replicate b CKFloat.zero ∧
        s'.output_buffer = List.replicate b CKFloat.zero ∧
        s'.idx = 0 ∧ s'.order = s.order ∧ s'.ir_buffer = s.ir_buffer ∧
        s'.convolver = s.convolver ∧ s'.SR = s.SR) ∧
    (∀ n, p.toInt32 = some n → n ≤ 2 ^ 30 → ∃ s' r, s.setBlockSize 32 p = some (s', r)) := by
  constructor
  · intro fuel s' r h
    obtain ⟨n, m, _, _, _, _, _, hs', hr⟩ := setBlockSize_spec h
    refine ⟨2 ^ m, ?_, ?_, ?_, ?_, ?_, ?_, ?_, ?_, ?_⟩ <;> first
      | (rw [hs']; done)
      | (rw [hs']; push_cast; rfl)
      | (rw [hr]; push_cast; rfl)
  · intro n hn hle
    exact setBlockSize_returns s p n hn hle 32 (le_refl 32)

/-- Witness for C6: a request of `100` on an object with a one-coefficient IR. -/
theorem setBlockSize_effect_frame_witness :
    (demoWithIR [ConvRev.half]).setBlockSize 32 (finite 100) =
      some (demoResized (demoWithIR [ConvRev.half]), finite 128) ∧
    (∃ b : Nat, (demoResized (demoWithIR [ConvRev.half])).blocksize = b ∧ finite 128 = ofInt b ∧
      (demoResized (demoWithIR [ConvRev.half])).input_buffer = List.replicate b CKFloat.zero ∧
      (demoResized (demoWithIR [ConvRev.half])).output_buffer = List.replicate b CKFloat.zero ∧
      (demoResized (demoWithIR [ConvRev.half])).idx = 0 ∧
      (demoResized (demoWithIR [ConvRev.half])).order = (demoWithIR [ConvRev.half]).order ∧
      (demoResized (demoWithIR [ConvRev.half])).ir_buffer = (demoWithIR [ConvRev.half]).ir_buffer ∧
      (demoResized (demoWithIR [ConvRev.half])).convolver = (demoWithIR [ConvRev.half]).convolver ∧
      (demoResized (demoWithIR [ConvRev.half])).SR = (demoWithIR [ConvRev.half]).SR) ∧
    (∃ s' r, (demoWithIR [ConvRev.half]).setBlockSize 32 (finite 100) = some (s', r)) :=
  have he : (demoWithIR [ConvRev.half]).setBlockSize 32 (finite 100) =
      some (demoResized (demoWithIR [ConvRev.half]), finite 128) := by
    simp [ConvRev.setBlockSize, toInt32, truncQ, roundLoop, wrap32, ofInt, vecFill,
      vecResize_length, demoResized]
  ⟨he, (setBlockSize_effect_frame (demoWithIR [ConvRev.half]) (finite 100)).1 32 _ _ he,
    (setBlockSize_effect_frame (demoWithIR [ConvRev.half]) (finite 100)).2 100
      (by simp [toInt32, truncQ]) (by norm_num)⟩

end BlockSizeClaims

/-! ## Auxiliary facts on the in-range behaviour -/

section InRange

variable {E : Type}

open CKFloat

theorem truncQ_pow2 (j : Nat) : truncQ ((2 : ℚ) ^ j) = 2 ^ j := by
  have hc : ((2 : ℚ) ^ j) = (((2 : Int) ^ j : Int) : ℚ) := by push_cast; rfl
  unfold truncQ
  rw [if_pos (by positivity), hc, Int.floor_intCast]

/-- In range, `getBlockSize` after `setBlockSize` reports a power of two at least
32, equal to the request exactly when the request is such a power of two. -/
theorem getBlockSize_after_setBlockSize (s : ConvRev E) (q : ℚ)
    (hlo : -2 ^ 31 ≤ truncQ q) (hhi : truncQ q ≤ 2 ^ 30) :
    ∃ s' r, ∃ m : Nat, s.setBlockSize 32 (finite q) = some (s', r) ∧ 5 ≤ m ∧
      s'.getBlockSize = finite ((2 : ℚ) ^ m) ∧
      (s'.getBlockSize = finite q ↔ ∃ j : Nat, 5 ≤ j ∧ q = 2 ^ j) := by
  have hi := toInt32_finite hlo (by omega : truncQ q < 2 ^ 31)
  obtain ⟨s', r, h⟩ := setBlockSize_returns s (finite q) (truncQ q) hi hhi 32 (le_refl 32)
  obtain ⟨n, m, hn, hm5, _, hge, hmin, hs', _⟩ := setBlockSize_spec h
  rw [hi] at hn
  cases hn
  have hg : s'.getBlockSize = finite ((2 : ℚ) ^ m) := by
    rw [hs']
    simp [ConvRev.getBlockSize, ofInt]
  refine ⟨s', r, m, h, hm5, hg, ?_⟩
  rw [hg]
  constructor
  · intro he
    injection he with he
    exact ⟨m, hm5, he.symm⟩
  · rintro ⟨j, hj5, rfl⟩
    rw [truncQ_pow2] at hge hmin
    have h32 : (2 : Int) ^ 5 ≤ 2 ^ j := pow2_le_of_le hj5
    have hmax : max ((2 : Int) ^ j) 32 = 2 ^ j := by omega
    rw [hmax] at hge hmin
    have hmj : m = j := by
      by_contra hne
      rcases Nat.lt_or_gt_of_ne hne with hlt | hgt
      · have : (2 : Int) ^ m < 2 ^ j := pow_lt_pow_right₀ (by norm_num) hlt
        omega
      · have := hmin j hgt
        omega
    rw [hmj]

/-- The C++ accessors round-trip: `getCoeff(i)` after `setCoeff(i, v)` is `v` for
every index inside the impulse response. -/
theorem getCoeff_setCoeff (s : ConvRev E) (i : Int) (v : CKFloat)
    (h0 : 0 ≤ i) (h1 : i < (s.ir_buffer.length : Int)) :
    (s.setCoeff i v).getCoeff i = v := by
  have hlt : i.toNat < s.ir_buffer.length := by omega
  unfold ConvRev.setCoeff
  rw [if_pos ⟨h0, h1⟩]
  unfold ConvRev.getCoeff
  simp only [List.length_set]
  rw [if_pos ⟨h0, h1⟩]
  simp [List.getD_eq_getElem?_getD, List.getElem?_set, hlt]

end InRange

/-! ## Properties of `init` and of the coefficient accessors -/

section InitClaims

variable {E : Type}

open CKFloat

/-- C7. Peak normalization in `init`, over exact arithmetic. For finite
coefficients `qs` with largest absolute value `M`: if `M > 1e-6`, every
coefficient becomes its old value times `0.5 / M` and the largest absolute value
becomes exactly `0.5`; if `M <= 1e-6` (the empty IR has `M = 0`) the coefficients
are unchanged. -/
theorem init_peak_normalize (eng : Engine E) (s : ConvRev E) (qs : List ℚ) (M : ℚ)
    (hfin : s.ir_buffer = qs.map finite) (hM : IsPeakQ qs M) :
    (1 / 1000000 < M →
      (s.init eng).ir_buffer = qs.map (fun q => finite (q * (1 / 2 / M))) ∧
      IsPeakQ (qs.map (fun q => q * (1 / 2 / M))) (1 / 2)) ∧
    (M ≤ 1 / 1000000 → (s.init eng).ir_buffer = s.ir_buffer) := by
  have hinit : (s.init eng).ir_buffer = ConvRev.conditionIR s.ir_buffer := rfl
  rw [hinit, hfin, conditionIR_finite hM]
  constructor
  · intro hlt
    rw [if_pos hlt]
    exact ⟨rfl, hM.scaled (lt_trans (by norm_num) hlt)⟩
  · intro hle
    rw [if_neg (not_lt.mpr hle)]

/-- Witness for C7: `[1e9, 0, 0, 0]` becomes `[0.5, 0, 0, 0]`, and the empty IR stays empty. -/
theorem init_peak_normalize_witness :
    IsPeakQ [1000000000, 0, 0, 0] 1000000000 ∧
    ((demoWithIR [finite 1000000000, finite 0, finite 0, finite 0]).init echoEngine).ir_buffer =
      [finite (1 / 2), finite 0, finite 0, finite 0] ∧
    ((demoWithIR []).init echoEngine).ir_buffer = [] :=
  have hp : IsPeakQ [1000000000, 0, 0, 0] 1000000000 :=
    ⟨by simp, Or.inl ⟨1000000000, by simp, by norm_num⟩⟩
  have h0 : IsPeakQ [] 0 := ⟨by simp, Or.inr ⟨rfl, rfl⟩⟩
  ⟨hp,
    by
      have h := ((init_peak_normalize echoEngine
        (demoWithIR [finite 1000000000, finite 0, finite 0, finite 0])
        [1000000000, 0, 0, 0] 1000000000 rfl hp).1 (by norm_num)).1
      rw [h]
      norm_num,
    (init_peak_normalize echoEngine (demoWithIR []) [] 0 rfl h0).2 (by norm_num)⟩

/-- C8. Finiteness scrub in `init`. If some coefficient is NaN or infinite, then
after `init` (a total function: it always completes) every coefficient is 0 and
the length is unchanged. -/
theorem init_scrubs_nonfinite (eng : Engine E) (s : ConvRev E)
    (h : ∃ c ∈ s.ir_buffer, c.isnan = true ∨ c.isinf = true) :
    (s.init eng).ir_buffer = List.replicate s.ir_buffer.length CKFloat.zero ∧
    (s.init eng).ir_buffer.length = s.ir_buffer.length ∧
    ∀ c ∈ (s.init eng).ir_buffer, c = CKFloat.zero := by
  have hinit : (s.init eng).ir_buffer = ConvRev.conditionIR s.ir_buffer := rfl
  have hp := (hasPoly_eq_true_iff s.ir_buffer).mpr h
  rw [hinit, conditionIR_scrub s.ir_buffer hp]
  exact ⟨rfl, by simp, fun c hc => List.eq_of_mem_replicate hc⟩

/-- Witness for C8: `[NaN, 1.0, 0.5]` becomes `[0, 0, 0]`. -/
theorem init_scrubs_nonfinite_witness :
    ((demoWithIR [nan, finite 1, finite (1 / 2)]).init echoEngine).ir_buffer =
      [finite 0, finite 0, finite 0] :=
  (init_scrubs_nonfinite echoEngine (demoWithIR [nan, finite 1, finite (1 / 2)])
    ⟨nan, by simp [demoWithIR], Or.inl rfl⟩).1

/-- C10 (the code at the failing input). On an object of order 1, after
`setCoeff(0, 0.5)` the stored coefficient is `0.5`, but the entry point
`convrev_getCoeff`, registered with return type `float`, writes the coefficient
converted to an integer into `RETURN->v_int`: the slot holds the integer `0`, not
a `float`, and it is the same slot content as after `setCoeff(0, 0.25)`. -/
theorem convrev_getCoeff_returns_truncated_int :
    (convrev_setOrder demoObj 1).map (fun r => r.state) = some (demoWithIR [CKFloat.zero]) ∧
    (convrev_setCoeff (demoWithIR [CKFloat.zero]) 0 (finite (1 / 2))).thrown = none ∧
    (convrev_setCoeff (demoWithIR [CKFloat.zero]) 0 (finite (1 / 2))).state.getCoeff 0 =
      finite (1 / 2) ∧
    (convrev_getCoeff (convrev_setCoeff (demoWithIR [CKFloat.zero]) 0 (finite (1 / 2))).state 0).ret =
      DLReturn.v_int (some 0) ∧
    (convrev_getCoeff (convrev_setCoeff (demoWithIR [CKFloat.zero]) 0 (finite (1 / 2))).state 0).ret
      ≠ DLReturn.v_float (finite (1 / 2)) ∧
    (convrev_getCoeff (convrev_setCoeff (demoWithIR [CKFloat.zero]) 0
      (finite (1 / 2))).state 0).ret.hasType convrev_getCoeff_type = false ∧
    (convrev_getCoeff (convrev_setCoeff (demoWithIR [CKFloat.zero]) 0 (finite (1 / 4))).state 0).ret =
      (convrev_getCoeff (convrev_setCoeff (demoWithIR [CKFloat.zero]) 0 (finite (1 / 2))).state
        0).ret := by
  have hs : ∀ v : CKFloat, (convrev_setCoeff (demoWithIR [CKFloat.zero]) 0 v).state =
      demoWithIR [v] := by
    intro v
    simp [convrev_setCoeff, ConvRev.getOrder, ConvRev.setCoeff, demoWithIR]
  have hg : ∀ v : CKFloat, (demoWithIR [v]).getCoeff 0 = v := by
    intro v
    simp [ConvRev.getCoeff, demoWithIR]
  have h2 : (finite (1 / 2)).toCKInt = some 0 := by
    norm_num [toCKInt, truncQ]
  have h4 : (finite (1 / 4)).toCKInt = some 0 := by
    norm_num [toCKInt, truncQ]
  refine ⟨?_, ?_, ?_, ?_, ?_, ?_, ?_⟩
  · simp [convrev_setOrder, ConvRev.setOrder, demoWithIR, vecResize, demoObj, ConvRev.ctor]
  · simp [convrev_setCoeff, ConvRev.getOrder, demoWithIR]
  · rw [hs, hg]
  · simp only [convrev_getCoeff, hs, hg, h2]
  · simp only [convrev_getCoeff, hs, hg, h2]
    intro h
    cases h
  · simp only [convrev_getCoeff, hs, hg, h2]
    rfl
  · simp only [convrev_getCoeff, hs, hg, h2, h4]

end InitClaims

/-! ## Error contracts and resizing of the coefficient store -/

section CoeffClaims

variable {E : Type}

open CKFloat

/-- C11. Error contract of `setCoeff`. The entry point raises `IndexOutOfBounds`
exactly when the index is negative or at least the current order (the block size
plays no part), it raises nothing otherwise, and when it raises the object is
unchanged; the indices `order` and `-1` both raise. -/
theorem convrev_setCoeff_error_contract (s : ConvRev E) (idx : Int) (val : CKFloat) :
    ((convrev_setCoeff s idx val).thrown = some "IndexOutOfBounds" ↔ (idx < 0 ∨ idx ≥ s.order)) ∧
    ((convrev_setCoeff s idx val).thrown = none ↔ (0 ≤ idx ∧ idx < s.order)) ∧
    ((convrev_setCoeff s idx val).thrown ≠ none → (convrev_setCoeff s idx val).state = s) ∧
    (convrev_setCoeff s s.order val).thrown = some "IndexOutOfBounds" ∧
    (convrev_setCoeff s s.order val).state = s ∧
    (convrev_setCoeff s (-1) val).thrown = some "IndexOutOfBounds" ∧
    (convrev_setCoeff s (-1) val).state = s := by
  have hcase : ∀ i : Int, (i ≥ s.getOrder ∨ i < 0) →
      (convrev_setCoeff s i val).thrown = some "IndexOutOfBounds" ∧
      (convrev_setCoeff s i val).state = s := by
    intro i hi
    unfold convrev_setCoeff
    rw [if_pos hi]
    exact ⟨rfl, rfl⟩
  have hok : ∀ i : Int, ¬ (i ≥ s.getOrder ∨ i < 0) → (convrev_setCoeff s i val).thrown = none := by
    intro i hi
    unfold convrev_setCoeff
    rw [if_neg hi]
  have ho : s.getOrder = s.order := rfl
  refine ⟨?_, ?_, ?_, (hcase s.order (Or.inl (by rw [ho]))).1,
    (hcase s.order (Or.inl (by rw [ho]))).2,
    (hcase (-1) (Or.inr (by decide))).1, (hcase (-1) (Or.inr (by decide))).2⟩
  · constructor
    · intro h
      by_contra hc
      have := hok idx (by rw [ho]; omega)
      rw [this] at h
      cases h
    · intro h
      exact (hcase idx (by rw [ho]; omega)).1
  · constructor
    · intro h
      by_contra hc
      have := (hcase idx (by rw [ho]; omega)).1
      rw [this] at h
      cases h
    · intro h
      exact hok idx (by rw [ho]; omega)
  · intro h
    by_cases hc : idx ≥ s.getOrder ∨ idx < 0
    · exact (hcase idx hc).2
    · exact absurd (hok idx hc) h

/-- Witness for C11: on an object of order 2, index 2 raises and leaves the
object unchanged, index 1 does not raise. -/
theorem convrev_setCoeff_error_contract_witness :
    (convrev_setCoeff (demoWithIR [finite 1, finite 2]) 2 (finite 5)).thrown =
      some "IndexOutOfBounds" ∧
    (convrev_setCoeff (demoWithIR [finite 1, finite 2]) 2 (finite 5)).state =
      demoWithIR [finite 1, finite 2] ∧
    (convrev_setCoeff (demoWithIR [finite 1, finite 2]) 1 (finite 5)).thrown = none :=
  have h2 := convrev_setCoeff_error_contract (demoWithIR [finite 1, finite 2]) 2 (finite 5)
  have h1 := convrev_setCoeff_error_contract (demoWithIR [finite 1, finite 2]) 1 (finite 5)
  have ht : (convrev_setCoeff (demoWithIR [finite 1, finite 2]) 2 (finite 5)).thrown =
      some "IndexOutOfBounds" := h2.1.mpr (Or.inr (by simp [demoWithIR]))
  ⟨ht, h2.2.2.1 (by rw [ht]; simp), h1.2.1.mpr (by simp [demoWithIR])⟩

/-- C12. Error contract of `setOrder`. A negative order raises `InvalidArgument`
and leaves the whole object (order, coefficients, block size, buffers, cursor)
unchanged; a non-negative order raises nothing. -/
theorem convrev_setOrder_error_contract (s : ConvRev E) (order : Int) :
    (order < 0 →
      convrev_setOrder s order =
        some { state := s, thrown := some "InvalidArgument", ret := DLReturn.v_int (some order) }) ∧
    (0 ≤ order → ∃ r, convrev_setOrder s order = some r ∧ r.thrown = none) := by
  constructor
  · intro h
    unfold convrev_setOrder
    rw [if_pos h]
  · intro h
    have hn : ¬ order < 0 := by omega
    unfold convrev_setOrder
    rw [if_neg hn]
    simp only [ConvRev.setOrder, if_neg hn]
    exact ⟨_, rfl, rfl⟩

/-- Witness for C12: `setOrder(-1)` on an object of order 2, and `setOrder(3)`. -/
theorem convrev_setOrder_error_contract_witness :
    convrev_setOrder (demoWithIR [finite 1, finite 2]) (-1) =
      some { state := demoWithIR [finite 1, finite 2], thrown := some "InvalidArgument",
             ret := DLReturn.v_int (some (-1)) } ∧
    ∃ r, convrev_setOrder (demoWithIR [finite 1, finite 2]) 3 = some r ∧ r.thrown = none :=
  ⟨(convrev_setOrder_error_contract (demoWithIR [finite 1, finite 2]) (-1)).1 (by decide),
    (convrev_setOrder_error_contract (demoWithIR [finite 1, finite 2]) 3).2 (by decide)⟩

theorem vecResize_getElem?_lt {α : Type} (l : List α) (n : Nat) (v : α) (j : Nat)
    (h1 : j < l.length) (h2 : j < n) : (vecResize l n v)[j]? = l[j]? := by
  unfold vecResize
  rw [List.getElem?_append_left (by simp only [List.length_take]; omega), List.getElem?_take,
    if_pos h2]

theorem vecResize_getElem?_ge {α : Type} (l : List α) (n : Nat) (v : α) (j : Nat)
    (h1 : l.length ≤ j) (h2 : j < n) : (vecResize l n v)[j]? = some v := by
  unfold vecResize
  have hl : (List.take n l).length = l.length := by
    simp only [List.length_take]; omega
  rw [List.getElem?_append_right (by omega), hl, List.getElem?_replicate, if_pos (by omega)]

/-- C13. Resize semantics of `setOrder`. For `n >= 0` the call succeeds,
`getOrder` returns `n`, the impulse response has exactly `n` elements, the prior
elements below `min(m, n)` are kept and the elements from `m` up to `n` are 0. -/
theorem convrev_setOrder_resize (s : ConvRev E) (n : Int) (hn : 0 ≤ n) :
    ∃ r, convrev_setOrder s n = some r ∧ r.thrown = none ∧
      (convrev_getOrder r.state).ret = DLReturn.v_int (some n) ∧
      r.state.getOrder = n ∧
      (r.state.ir_buffer.length : Int) = n ∧
      (∀ j : Nat, j < s.ir_buffer.length → (j : Int) < n →
        r.state.ir_buffer[j]? = s.ir_buffer[j]?) ∧
      (∀ j : Nat, s.ir_buffer.length ≤ j → (j : Int) < n →
        r.state.ir_buffer[j]? = some CKFloat.zero) := by
  have hneg : ¬ n < 0 := by omega
  refine ⟨{ state := { s with order := n,
                              ir_buffer := vecResize s.ir_buffer n.toNat CKFloat.zero },
            thrown := none, ret := DLReturn.v_int (some n) }, ?_, rfl, rfl, rfl, ?_, ?_, ?_⟩
  · unfold convrev_setOrder
    rw [if_neg hneg]
    simp only [ConvRev.setOrder, if_neg hneg]
  · show ((vecResize s.ir_buffer n.toNat CKFloat.zero).length : Int) = n
    rw [vecResize_length]
    omega
  · intro j h1 h2
    exact vecResize_getElem?_lt _ _ _ j h1 (by omega)
  · intro j h1 h2
    exact vecResize_getElem?_ge _ _ _ j h1 (by omega)

/-- Witness for C13: growing `[1, 2]` to order 3 gives `[1, 2, 0]`, shrinking it
to order 1 gives `[1]`. -/
theorem convrev_setOrder_resize_witness :
    (∃ r, convrev_setOrder (demoWithIR [finite 1, finite 2]) 3 = some r ∧ r.thrown = none ∧
      (convrev_getOrder r.state).ret = DLReturn.v_int (some 3) ∧
      r.state.getOrder = 3 ∧
      (r.state.ir_buffer.length : Int) = 3 ∧
      (∀ j : Nat, j < (demoWithIR [finite 1, finite 2]).ir_buffer.length → (j : Int) < 3 →
        r.state.ir_buffer[j]? = (demoWithIR [finite 1, finite 2]).ir_buffer[j]?) ∧
      (∀ j : Nat, (demoWithIR [finite 1, finite 2]).ir_buffer.length ≤ j → (j : Int) < 3 →
        r.state.ir_buffer[j]? = some CKFloat.zero)) ∧
    (convrev_setOrder (demoWithIR [finite 1, finite 2]) 3).map (fun r => r.state.ir_buffer) =
      some [finite 1, finite 2, CKFloat.zero] ∧
    (convrev_setOrder (demoWithIR [finite 1, finite 2]) 1).map (fun r => r.state.ir_buffer) =
      some [finite 1] :=
  ⟨convrev_setOrder_resize (demoWithIR [finite 1, finite 2]) 3 (by decide), rfl, rfl⟩

end CoeffClaims

/-! ## Reading coefficients, `init` twice, and the stored order -/

section ReadClaims

variable {E : Type}

open CKFloat

theorem toCKInt_zero : CKFloat.zero.toCKInt = some 0 := by
  norm_num [toCKInt, truncQ, CKFloat.zero]

/-- The C++ method `getCoeff` is a lenient read: 0 outside the impulse response,
the stored coefficient inside it; the entry point neither raises nor changes the
object, and outside the impulse response it leaves integer 0 in the return slot. -/
theorem getCoeff_lenient (s : ConvRev E) (idx : Int) :
    ((idx < 0 ∨ (s.ir_buffer.length : Int) ≤ idx) → s.getCoeff idx = CKFloat.zero) ∧
    ((0 ≤ idx ∧ idx < (s.ir_buffer.length : Int)) →
      s.ir_buffer[idx.toNat]? = some (s.getCoeff idx)) ∧
    (convrev_getCoeff s idx).thrown = none ∧
    (convrev_getCoeff s idx).state = s ∧
    ((idx < 0 ∨ (s.ir_buffer.length : Int) ≤ idx) →
      (convrev_getCoeff s idx).ret = DLReturn.v_int (some 0)) := by
  have hout : (idx < 0 ∨ (s.ir_buffer.length : Int) ≤ idx) → s.getCoeff idx = CKFloat.zero := by
    intro h
    unfold ConvRev.getCoeff
    rw [if_neg (by omega)]
  refine ⟨hout, ?_, rfl, rfl, ?_⟩
  · intro h
    have hlt : idx.toNat < s.ir_buffer.length := by omega
    unfold ConvRev.getCoeff
    rw [if_pos h]
    simp [List.getD_eq_getElem?_getD, List.getElem?_eq_getElem hlt]
  · intro h
    unfold convrev_getCoeff
    simp only [hout h, toCKInt_zero]

/-- C14 (the code at the failing input). On an object holding the coefficients
`[1.5, -0.75]`, the C++ method `getCoeff` returns `1.5` and `-0.75`, but the
entry point `convrev_getCoeff` (registered as `float`) leaves the integers `1`
and `0` in `RETURN->v_int`; outside the range (indices `2` and `-1`) it leaves
integer `0`, raises nothing and does not change the object. -/
theorem convrev_getCoeff_in_range_returns_integer :
    (demoWithIR [finite (3 / 2), finite (-3 / 4)]).getCoeff 0 = finite (3 / 2) ∧
    (convrev_getCoeff (demoWithIR [finite (3 / 2), finite (-3 / 4)]) 0).ret =
      DLReturn.v_int (some 1) ∧
    (demoWithIR [finite (3 / 2), finite (-3 / 4)]).getCoeff 1 = finite (-3 / 4) ∧
    (convrev_getCoeff (demoWithIR [finite (3 / 2), finite (-3 / 4)]) 1).ret =
      DLReturn.v_int (some 0) ∧
    (convrev_getCoeff (demoWithIR [finite (3 / 2), finite (-3 / 4)]) 0).ret.hasType
      convrev_getCoeff_type = false ∧
    (convrev_getCoeff (demoWithIR [finite (3 / 2), finite (-3 / 4)]) 2).ret =
      DLReturn.v_int (some 0) ∧
    (convrev_getCoeff (demoWithIR [finite (3 / 2), finite (-3 / 4)]) (-1)).ret =
      DLReturn.v_int (some 0) ∧
    (convrev_getCoeff (demoWithIR [finite (3 / 2), finite (-3 / 4)]) 2).thrown = none ∧
    (convrev_getCoeff (demoWithIR [finite (3 / 2), finite (-3 / 4)]) 2).state =
      demoWithIR [finite (3 / 2), finite (-3 / 4)] := by
  have g0 : (demoWithIR [finite (3 / 2), finite (-3 / 4)]).getCoeff 0 = finite (3 / 2) := by
    simp [ConvRev.getCoeff, demoWithIR]
  have g1 : (demoWithIR [finite (3 / 2), finite (-3 / 4)]).getCoeff 1 = finite (-3 / 4) := by
    simp [ConvRev.getCoeff, demoWithIR]
  have t0 : (finite (3 / 2)).toCKInt = some 1 := by
    have hf : ⌊(3 / 2 : ℚ)⌋ = 1 := by rw [Int.floor_eq_iff]; norm_num
    have ht : truncQ (3 / 2) = 1 := by
      unfold truncQ; rw [if_pos (by norm_num), hf]
    simp only [toCKInt, ht]
    norm_num
  have t1 : (finite (-3 / 4)).toCKInt = some 0 := by
    have hc : ⌈(-3 / 4 : ℚ)⌉ = 0 := by rw [Int.ceil_eq_iff]; norm_num
    have ht : truncQ (-3 / 4) = 0 := by
      unfold truncQ; rw [if_neg (by norm_num), hc]
    simp only [toCKInt, ht]
    norm_num
  have hl := getCoeff_lenient (demoWithIR [finite (3 / 2), finite (-3 / 4)])
  refine ⟨g0, ?_, g1, ?_, ?_, ?_, ?_, rfl, rfl⟩
  · simp only [convrev_getCoeff, g0, t0]
  · simp only [convrev_getCoeff, g1, t1]
  · simp only [convrev_getCoeff, g0, t0]
    rfl
  · exact (hl 2).2.2.2.2 (Or.inr (by simp [demoWithIR]))
  · exact (hl (-1)).2.2.2.2 (Or.inl (by decide))

/-- C15. `init` resets the scheduler. From every state, after `init` both buffers
hold only zeros, the cursor is 0, and the block size, both buffer lengths and the
order are as before; the same holds after a second `init`. -/
theorem init_resets_scheduler (eng : Engine E) (s : ConvRev E) :
    ((s.init eng).input_buffer = List.replicate s.input_buffer.length CKFloat.zero ∧
     (s.init eng).output_buffer = List.replicate s.output_buffer.length CKFloat.zero ∧
     (∀ c ∈ (s.init eng).input_buffer, c = CKFloat.zero) ∧
     (∀ c ∈ (s.init eng).output_buffer, c = CKFloat.zero) ∧
     (s.init eng).idx = 0 ∧ (s.init eng).blocksize = s.blocksize ∧
     (s.init eng).input_buffer.length = s.input_buffer.length ∧
     (s.init eng).output_buffer.length = s.output_buffer.length ∧
     (s.init eng).order = s.order) ∧
    (((s.init eng).init eng).input_buffer = List.replicate s.input_buffer.length CKFloat.zero ∧
     ((s.init eng).init eng).output_buffer =
       List.replicate s.output_buffer.length CKFloat.zero ∧
     (∀ c ∈ ((s.init eng).init eng).input_buffer, c = CKFloat.zero) ∧
     (∀ c ∈ ((s.init eng).init eng).output_buffer, c = CKFloat.zero) ∧
     ((s.init eng).init eng).idx = 0 ∧ ((s.init eng).init eng).blocksize = s.blocksize ∧
     ((s.init eng).init eng).input_buffer.length = s.input_buffer.length ∧
     ((s.init eng).init eng).output_buffer.length = s.output_buffer.length ∧
     ((s.init eng).init eng).order = s.order) := by
  have key : ∀ t : ConvRev E,
      (t.init eng).input_buffer = List.replicate t.input_buffer.length CKFloat.zero ∧
      (t.init eng).output_buffer = List.replicate t.output_buffer.length CKFloat.zero ∧
      (∀ c ∈ (t.init eng).input_buffer, c = CKFloat.zero) ∧
      (∀ c ∈ (t.init eng).output_buffer, c = CKFloat.zero) ∧
      (t.init eng).idx = 0 ∧ (t.init eng).blocksize = t.blocksize ∧
      (t.init eng).input_buffer.length = t.input_buffer.length ∧
      (t.init eng).output_buffer.length = t.output_buffer.length ∧
      (t.init eng).order = t.order := by
    intro t
    refine ⟨rfl, rfl, ?_, ?_, rfl, rfl, ?_, ?_, rfl⟩
    · intro c hc
      exact List.eq_of_mem_replicate hc
    · intro c hc
      exact List.eq_of_mem_replicate hc
    · show (vecFill t.input_buffer CKFloat.zero).length = _
      exact vecFill_length _ _
    · show (vecFill t.output_buffer CKFloat.zero).length = _
      exact vecFill_length _ _
  obtain ⟨a1, a2, a3, a4, a5, a6, a7, a8, a9⟩ := key s
  obtain ⟨b1, b2, b3, b4, b5, b6, b7, b8, b9⟩ := key (s.init eng)
  refine ⟨⟨a1, a2, a3, a4, a5, a6, a7, a8, a9⟩, ?_, ?_, b3, b4, b5, ?_, ?_, ?_, ?_⟩
  · rw [b1, a7]
  · rw [b2, a8]
  · rw [b6, a6]
  · rw [b7, a7]
  · rw [b8, a8]
  · rw [b9, a9]

/-- C17. IR length invariant. In every reachable state the number of stored
coefficients equals the stored order, so the order check of the entry point
`convrev_setCoeff` and the size check of the method `setCoeff` accept exactly the
same indices. -/
theorem ir_length_invariant (eng : Engine E) (s : ConvRev E) (h : Reachable eng s) :
    (s.ir_buffer.length : Int) = s.order ∧ (s.ir_buffer.length : Int) = s.getOrder ∧
    ∀ idx : Int, (¬ (idx ≥ s.getOrder ∨ idx < 0)) ↔ (0 ≤ idx ∧ idx < (s.ir_buffer.length : Int)) := by
  have hir : (s.ir_buffer.length : Int) = s.order := (reachable_inv h).2
  have ho : s.getOrder = s.order := rfl
  refine ⟨hir, hir, ?_⟩
  intro idx
  rw [ho]
  omega

/-- Witness for C17: the object after construction, `setOrder(3)` and `init`. -/
theorem ir_length_invariant_witness :
    Reachable echoEngine
      (convrev_init echoEngine
        { demoObj with order := 3, ir_buffer := vecResize [] 3 CKFloat.zero }).state ∧
    ((convrev_init echoEngine
        { demoObj with order := 3, ir_buffer := vecResize [] 3 CKFloat.zero }).state.ir_buffer.length
      : Int) = 3 :=
  have hs : convrev_setOrder demoObj 3 =
      some { state := { demoObj with order := 3, ir_buffer := vecResize [] 3 CKFloat.zero },
             thrown := none, ret := DLReturn.v_int (some 3) } := rfl
  have hr : Reachable echoEngine
      (convrev_init echoEngine
        { demoObj with order := 3, ir_buffer := vecResize [] 3 CKFloat.zero }).state :=
    Reachable.init (Reachable.setOrder (Reachable.ctor false (finite 44100)) hs)
  ⟨hr, (ir_length_invariant echoEngine _ hr).1⟩

end ReadClaims

/-! ## The rounding loop at the top of the `int` range, and `init` twice -/

section LoopAndIdempotence

variable {E : Type}

open CKFloat

/-- C19 (the code at the failing input). For `size = 2^31 - 1 = 2147483647`, a
value of a 32-bit signed `int`, the loop `while (p2 < size) p2 <<= 1` never ends,
whatever the number of loop tests: the shift of `p2 = 2^30` overflows to `-2^31`,
the next shift gives `0`, and `0` stays below `size` for ever. -/
theorem roundLoop_never_ends_at_int_max (fuel : Nat) :
    (2147483647 : Int) = 2 ^ 31 - 1 ∧
    roundLoop fuel 1 2147483647 = none ∧
    wrap32 (2 ^ 30 * 2) = -2 ^ 31 ∧
    wrap32 (-2 ^ 31 * 2) = 0 ∧
    wrap32 (0 * 2) = 0 := by
  have h := roundLoop_diverges 2147483647 (by norm_num) fuel 0 (by omega)
  refine ⟨by norm_num, by simpa using h, by decide, by decide, by decide⟩

theorem conditionIR_zeros (n : Nat) :
    ConvRev.conditionIR (List.replicate n CKFloat.zero) = List.replicate n CKFloat.zero := by
  have hp : ConvRev.hasPoly (List.replicate n CKFloat.zero) = false := by
    simp [ConvRev.hasPoly, CKFloat.zero, isnan, isinf]
  have hg : CKFloat.zero.gt ConvRev.peakThreshold = false := by
    simp [CKFloat.zero, ConvRev.peakThreshold, CKFloat.gt]
  unfold ConvRev.conditionIR
  simp only [hp, Bool.false_eq_true, if_false, maxVal_replicate_zero, hg]

/-- Conditioning a conditioned impulse response changes nothing. -/
theorem conditionIR_idem (ir : List Sample) :
    ConvRev.conditionIR (ConvRev.conditionIR ir) = ConvRev.conditionIR ir := by
  cases hp : ConvRev.hasPoly ir with
  | true =>
    rw [conditionIR_scrub ir hp, conditionIR_zeros]
  | false =>
    obtain ⟨qs, rfl⟩ := eq_map_finite_of_hasPoly_false ir hp
    obtain ⟨M, _, hM⟩ := maxVal_map_finite qs
    rw [conditionIR_finite hM]
    by_cases hlt : 1 / 1000000 < M
    · rw [if_pos hlt]
      have hpos : 0 < M := lt_trans (by norm_num) hlt
      have hsc := hM.scaled hpos
      have hmap : qs.map (fun q => finite (q * (1 / 2 / M))) =
          (qs.map (fun q => q * (1 / 2 / M))).map finite := by
        rw [List.map_map]
        rfl
      rw [hmap, conditionIR_finite hsc, if_pos (by norm_num)]
      apply List.map_congr_left
      intro q _
      norm_num
    · rw [if_neg hlt, conditionIR_finite hM, if_neg hlt]

/-- C20. The IR conditioning is idempotent over exact arithmetic: the stored
coefficients after two calls of `init` in a row are those after one call. -/
theorem init_conditioning_idempotent (eng : Engine E) (s : ConvRev E) :
    ((s.init eng).init eng).ir_buffer = (s.init eng).ir_buffer := by
  show ConvRev.conditionIR (ConvRev.conditionIR s.ir_buffer) = ConvRev.conditionIR s.ir_buffer
  exact conditionIR_idem s.ir_buffer

end LoopAndIdempotence

/-! ## Causality and the single step of `tick` -/

section TickStepClaims

variable {E : Type}

theorem stateBefore_congr (eng : Engine E) (x x' : Nat → Sample) (s0 : ConvRev E) :
    ∀ n, (∀ j, j < n → x j = x' j) → stateBefore eng x s0 n = stateBefore eng x' s0 n := by
  intro n
  induction n with
  | zero => intro _; rfl
  | succ n ih =>
    intro h
    have hprev := ih (fun j hj => h j (by omega))
    simp only [stateBefore, hprev, h n (by omega)]

/-- C16. Causality of `tick`. For every initial state and any two input streams
that agree on samples `0 .. n`, the values returned by calls `0 .. n` are the
same in both runs: no output depends on a later input. -/
theorem tick_causal (eng : Engine E) (s0 : ConvRev E) (x x' : Nat → Sample) (n : Nat)
    (h : ∀ j, j ≤ n → x j = x' j) :
    ∀ j, j ≤ n → tickOut eng x s0 j = tickOut eng x' s0 j := by
  intro j hj
  have hs := stateBefore_congr eng x x' s0 j (fun i hi => h i (by omega))
  simp only [tickOut, hs, h j hj]

/-- Witness for C16: two streams that differ from sample 4 on give the same
outputs at samples `0 .. 3`; the outputs exist and are 0. -/
theorem tick_causal_witness :
    (∀ j, j ≤ 3 → impulses j = impulsesThenSevens j) ∧
    impulses 4 ≠ impulsesThenSevens 4 ∧
    (∀ j, j ≤ 3 →
      tickOut echoEngine impulses demo4 j = tickOut echoEngine impulsesThenSevens demo4 j) ∧
    tickOut echoEngine impulsesThenSevens demo4 3 = some CKFloat.zero :=
  have hagree : ∀ j, j ≤ 3 → impulses j = impulsesThenSevens j := by
    intro j hj
    simp [impulsesThenSevens, hj]
  ⟨hagree, by decide, tick_causal echoEngine demo4 impulses impulsesThenSevens 3 hagree, rfl⟩

theorem succ_div_mod (B m : Nat) (hB : 0 < B) :
    (m % B + 1 = B → (m + 1) / B = m / B + 1 ∧ (m + 1) % B = 0) ∧
    (m % B + 1 ≠ B → (m + 1) / B = m / B ∧ (m + 1) % B = m % B + 1) := by
  have h1 := Nat.div_add_mod m B
  have h2 := Nat.mod_lt m hB
  have hm : m + 1 = (m % B + 1) + B * (m / B) := by omega
  constructor
  · intro he
    rw [hm, Nat.add_mul_div_left _ _ hB, Nat.add_mul_mod_self_left, he, Nat.div_self hB,
      Nat.mod_self]
    omega
  · intro hne
    have hlt : m % B + 1 < B := by omega
    rw [hm, Nat.add_mul_div_left _ _ hB, Nat.add_mul_mod_self_left, Nat.div_eq_of_lt hlt,
      Nat.mod_eq_of_lt hlt]
    omega

/-- One call of `tick` from a ready state, for any engine. -/
theorem TickReady.step (eng : Engine E) {s : ConvRev E} {B : Nat} (h : TickReady s B)
    (v : Sample) :
    ∃ s' y, s.tick eng v = some (s', y) ∧ s.output_buffer[s.idx]? = some y ∧
      s'.input_buffer = s.input_buffer.set s.idx v ∧
      s'.idx = (s.idx + 1) % B ∧
      (s.idx + 1 = B →
        s'.convolver = (eng.process s.convolver (s.input_buffer.set s.idx v)).1 ∧
        s'.output_buffer = (eng.process s.convolver (s.input_buffer.set s.idx v)).2) ∧
      (s.idx + 1 ≠ B → s'.convolver = s.convolver ∧ s'.output_buffer = s.output_buffer) ∧
      s'.blocksize = s.blocksize ∧ s'.order = s.order ∧ s'.ir_buffer = s.ir_buffer ∧
      TickReady s' B := by
  have hbs := h.ready_bs
  have hidx := h.ready_idx
  have hin := h.ready_in
  have hout := h.ready_out
  have hio : s.idx < s.output_buffer.length := by omega
  have hy : s.output_buffer[s.idx]? = some s.output_buffer[s.idx] := List.getElem?_eq_getElem hio
  by_cases hb : s.idx + 1 = B
  · have hbi : ((s.idx : Int) + 1 = s.blocksize) := by rw [hbs]; omega
    have htake : (s.input_buffer.set s.idx v).take (s.idx + 1) = s.input_buffer.set s.idx v :=
      List.take_of_length_le (by rw [List.length_set]; omega)
    have hdrop : s.output_buffer.drop (s.idx + 1) = [] := List.drop_of_length_le (by omega)
    refine ⟨{ s with
        input_buffer := s.input_buffer.set s.idx v
        output_buffer := (eng.process s.convolver (s.input_buffer.set s.idx v)).2
        convolver := (eng.process s.convolver (s.input_buffer.set s.idx v)).1
        idx := 0 }, s.output_buffer[s.idx], ?_, hy, rfl, ?_, fun _ => ⟨rfl, rfl⟩,
      fun hne => absurd hb hne, rfl, rfl, rfl, ?_⟩
    · unfold ConvRev.tick
      rw [if_pos (by omega), hy]
      simp only [Nat.cast_add, Nat.cast_one, if_pos hbi, htake, hdrop, List.append_nil]
    · show 0 = (s.idx + 1) % B
      rw [hb, Nat.mod_self]
    · refine ⟨hbs, by show 0 < B; omega, ?_, ?_⟩
      · show (s.input_buffer.set s.idx v).length = B
        rw [List.length_set]; exact hin
      · show (eng.process s.convolver (s.input_buffer.set s.idx v)).2.length = B
        rw [eng.process_length, List.length_set]; exact hin
  · have hbi : ¬ ((s.idx : Int) + 1 = s.blocksize) := by rw [hbs]; omega
    refine ⟨{ s with input_buffer := s.input_buffer.set s.idx v, idx := s.idx + 1 },
      s.output_buffer[s.idx], ?_, hy, rfl, ?_, fun he => absurd he hb, fun _ => ⟨rfl, rfl⟩,
      rfl, rfl, rfl, ?_⟩
    · unfold ConvRev.tick
      rw [if_pos (by omega), hy]
      simp only [Nat.cast_add, Nat.cast_one, if_neg hbi]
    · show s.idx + 1 = (s.idx + 1) % B
      rw [Nat.mod_eq_of_lt (by omega)]
    · refine ⟨hbs, by show s.idx + 1 < B; omega, ?_, hout⟩
      show (s.input_buffer.set s.idx v).length = B
      rw [List.length_set]; exact hin

/-- After `n` calls of `tick` from a ready state with cursor `c`, the counting
engine has been invoked `(c + n) / B` times. -/
theorem TickReady.run_count (eng : Engine E) {s : ConvRev (E × Nat)} {B : Nat}
    (h : TickReady s B) (x : Nat → Sample) :
    ∀ n, ∃ sn, stateBefore (countingEngine eng) x s n = some sn ∧ TickReady sn B ∧
      sn.idx = (s.idx + n) % B ∧
      sn.convolver.2 = s.convolver.2 + (s.idx + n) / B ∧
      sn.blocksize = s.blocksize ∧ sn.order = s.order ∧ sn.ir_buffer = s.ir_buffer := by
  have hB : 0 < B := Nat.lt_of_le_of_lt (Nat.zero_le _) h.ready_idx
  intro n
  induction n with
  | zero =>
    refine ⟨s, rfl, h, ?_, ?_, rfl, rfl, rfl⟩
    · rw [Nat.add_zero, Nat.mod_eq_of_lt h.ready_idx]
    · rw [Nat.add_zero, Nat.div_eq_of_lt h.ready_idx, Nat.add_zero]
  | succ n ih =>
    obtain ⟨sn, hsn, hr, hi, hc, f1, f2, f3⟩ := ih
    obtain ⟨s', y, ht, _, _, hi', hyes, hno, g1, g2, g3, hr'⟩ :=
      hr.step (countingEngine eng) (x n)
    obtain ⟨dyes, dno⟩ := succ_div_mod B (s.idx + n) hB
    refine ⟨s', stateBefore_succ hsn ht, hr', ?_, ?_, by rw [g1, f1], by rw [g2, f2],
      by rw [g3, f3]⟩
    · rw [hi', hi, ← Nat.add_assoc]
      by_cases hb : (s.idx + n) % B + 1 = B
      · rw [hb, Nat.mod_self, (dyes hb).2]
      · rw [(dno hb).2, Nat.mod_eq_of_lt (by have := Nat.mod_lt (s.idx + n) hB; omega)]
    · rw [← Nat.add_assoc]
      by_cases hb : (s.idx + n) % B + 1 = B
      · have hconv := (hyes (by rw [hi]; exact hb)).1
        rw [(dyes hb).1, hconv]
        show sn.convolver.2 + 1 = _
        rw [hc]
        omega
      · have hconv := (hno (by rw [hi]; exact hb)).1
        rw [(dno hb).1, hconv, hc]

/-- C18. Single step of `tick`. From a state with cursor `c` below the block size
`B` (buffers of length `B`), `tick(v)` stores `v` at `InputBuffer[c]`, returns the
old `OutputBuffer[c]` and moves the cursor to `(c + 1) mod B`; the engine's
`process` is invoked (once, on the input buffer) exactly when `c + 1 = B`, and
otherwise engine and output buffer are untouched; so after `n` calls the engine
has been invoked `(c + n) / B` times. Block size, order and impulse response never
change. Invocations are counted by the counter of `countingEngine`. -/
theorem tick_single_step (eng : Engine E) (s : ConvRev (E × Nat)) (B : Nat)
    (h : TickReady s B) (v : Sample) (x : Nat → Sample) :
    (∃ s' y, s.tick (countingEngine eng) v = some (s', y) ∧
      s'.input_buffer = s.input_buffer.set s.idx v ∧
      s.output_buffer[s.idx]? = some y ∧
      s'.idx = (s.idx + 1) % B ∧
      (s.idx + 1 = B →
        s'.convolver.2 = s.convolver.2 + 1 ∧
        s'.convolver.1 = (eng.process s.convolver.1 (s.input_buffer.set s.idx v)).1 ∧
        s'.output_buffer = (eng.process s.convolver.1 (s.input_buffer.set s.idx v)).2) ∧
      (s.idx + 1 ≠ B → s'.convolver = s.convolver ∧ s'.output_buffer = s.output_buffer) ∧
      s'.blocksize = s.blocksize ∧ s'.order = s.order ∧ s'.ir_buffer = s.ir_buffer) ∧
    (∀ n, ∃ sn, stateBefore (countingEngine eng) x s n = some sn ∧
      sn.convolver.2 = s.convolver.2 + (s.idx + n) / B ∧
      sn.blocksize = s.blocksize ∧ sn.order = s.order ∧ sn.ir_buffer = s.ir_buffer) := by
  constructor
  · obtain ⟨s', y, ht, hy, hin, hi, hyes, hno, g1, g2, g3, _⟩ := h.step (countingEngine eng) v
    refine ⟨s', y, ht, hin, hy, hi, ?_, hno, g1, g2, g3⟩
    intro hb
    obtain ⟨hc, ho⟩ := hyes hb
    exact ⟨by rw [hc]; rfl, by rw [hc]; rfl, by rw [ho]; rfl⟩
  · intro n
    obtain ⟨sn, hsn, _, _, hc, f1, f2, f3⟩ := h.run_count eng x n
    exact ⟨sn, hsn, hc, f1, f2, f3⟩

/-- Witness for C18: block size 4, cursor 0; the engine has been invoked once
after 7 calls and twice after 8. -/
theorem tick_single_step_witness :
    TickReady demo4Counting 4 ∧
    (∃ sn, stateBefore (countingEngine echoEngine) impulses demo4Counting 8 = some sn ∧
      sn.convolver.2 = demo4Counting.convolver.2 + (demo4Counting.idx + 8) / 4 ∧
      sn.blocksize = demo4Counting.blocksize ∧ sn.order = demo4Counting.order ∧
      sn.ir_buffer = demo4Counting.ir_buffer) ∧
    (stateBefore (countingEngine echoEngine) impulses demo4Counting 7).map
      (fun s => s.convolver.2) = some 1 ∧
    (stateBefore (countingEngine echoEngine) impulses demo4Counting 8).map
      (fun s => s.convolver.2) = some 2 :=
  have hr : TickReady demo4Counting 4 := ⟨rfl, by decide, rfl, rfl⟩
  ⟨hr, (tick_single_step echoEngine demo4Counting 4 hr CKFloat.zero impulses).2 8, rfl, rfl⟩

end TickStepClaims

/-! ## Rounding to binary32 -/

section Binary32

open CKFloat

theorem abs_roundEven_sub_le (r : ℚ) : |(roundEven r : ℚ) - r| ≤ 1 / 2 := by
  have h1 := Int.floor_le r
  have h2 := Int.lt_floor_add_one r
  unfold roundEven
  rw [abs_le]
  split
  · constructor <;> linarith
  · split
    · push_cast
      constructor <;> linarith
    · split
      · constructor <;> linarith
      · push_cast
        constructor <;> linarith

theorem roundEven_of_lt (r : ℚ) (f : Int) (h1 : (f : ℚ) ≤ r) (h2 : r < f + 1 / 2) :
    roundEven r = f := by
  have hf : ⌊r⌋ = f := by
    rw [Int.floor_eq_iff]
    constructor <;> linarith
  unfold roundEven
  rw [hf, if_pos (by linarith)]

theorem roundEven_of_gt (r : ℚ) (f : Int) (h1 : (f : ℚ) + 1 / 2 < r) (h2 : r < f + 1) :
    roundEven r = f + 1 := by
  have hf : ⌊r⌋ = f := by
    rw [Int.floor_eq_iff]
    constructor <;> linarith
  unfold roundEven
  rw [hf, if_neg (by linarith), if_pos (by linarith)]

theorem exp32_eq (x : ℚ) (e : Int) (h1 : (2 : ℚ) ^ e ≤ |x|) (h2 : |x| < (2 : ℚ) ^ (e + 1)) :
    exp32 x = max e (-126) := by
  have hpos : 0 < |x| := lt_of_lt_of_le (zpow_pos (by norm_num) e) h1
  have hx : x ≠ 0 := abs_pos.mp hpos
  have hle : e ≤ Int.log 2 |x| := by
    rw [← Int.zpow_le_iff_le_log (by norm_num) hpos]
    exact_mod_cast h1
  have hlt : Int.log 2 |x| < e + 1 := by
    rw [← Int.lt_zpow_iff_log_lt (by norm_num) hpos]
    exact_mod_cast h2
  unfold exp32
  rw [if_neg hx]
  have : Int.log 2 |x| = e := by omega
  rw [this]

theorem ulp32_pos (x : ℚ) : 0 < ulp32 x := zpow_pos (by norm_num) _

theorem ulp32_le (x : ℚ) : ulp32 x ≤ max |x| ((2 : ℚ) ^ (-126 : Int)) * (2 : ℚ) ^ (-23 : Int) := by
  have h23 : (0 : ℚ) < (2 : ℚ) ^ (-23 : Int) := zpow_pos (by norm_num) _
  have hsplit : ∀ e : Int, (2 : ℚ) ^ (e - 23) = (2 : ℚ) ^ e * (2 : ℚ) ^ (-23 : Int) := by
    intro e
    rw [sub_eq_add_neg, zpow_add₀ (by norm_num)]
  unfold ulp32 exp32
  by_cases hx : x = 0
  · rw [if_pos hx, hsplit]
    exact mul_le_mul_of_nonneg_right (le_max_right _ _) (le_of_lt h23)
  · rw [if_neg hx, hsplit]
    apply mul_le_mul_of_nonneg_right _ (le_of_lt h23)
    have hpos : 0 < |x| := abs_pos.mpr hx
    rcases le_total (Int.log 2 |x|) (-126) with h | h
    · rw [max_eq_right h]
      exact le_max_right _ _
    · rw [max_eq_left h]
      have := Int.zpow_log_le_self (b := 2) (by norm_num) hpos
      exact le_trans (by exact_mod_cast this) (le_max_left _ _)

theorem abs_nearest32_sub_le (x : ℚ) : |nearest32 x - x| ≤ ulp32 x / 2 := by
  have hU := ulp32_pos x
  have h := abs_roundEven_sub_le (x / ulp32 x)
  have he : nearest32 x - x = ((roundEven (x / ulp32 x) : ℚ) - x / ulp32 x) * ulp32 x := by
    unfold nearest32
    field_simp
  rw [he, abs_mul, abs_of_pos hU]
  calc |(roundEven (x / ulp32 x) : ℚ) - x / ulp32 x| * ulp32 x
      ≤ 1 / 2 * ulp32 x := mul_le_mul_of_nonneg_right h (le_of_lt hU)
    _ = ulp32 x / 2 := by ring

/-- The rounding error of binary32: at most `2^-24` relative, or `2^-150` absolute. -/
theorem abs_nearest32_sub_le_max (x : ℚ) :
    |nearest32 x - x| ≤ max |x| ((2 : ℚ) ^ (-126 : Int)) * (2 : ℚ) ^ (-24 : Int) := by
  have h1 := abs_nearest32_sub_le x
  have h2 := ulp32_le x
  have h24 : (2 : ℚ) ^ (-24 : Int) = (2 : ℚ) ^ (-23 : Int) / 2 := by norm_num
  rw [h24]
  calc |nearest32 x - x| ≤ ulp32 x / 2 := h1
    _ ≤ max |x| ((2 : ℚ) ^ (-126 : Int)) * (2 : ℚ) ^ (-23 : Int) / 2 :=
        (div_le_div_iff_of_pos_right (by norm_num : (0 : ℚ) < 2)).mpr h2
    _ = max |x| ((2 : ℚ) ^ (-126 : Int)) * ((2 : ℚ) ^ (-23 : Int) / 2) := by ring

theorem round32_of_lt (x : ℚ) (h : |nearest32 x| < 2 ^ 128) : round32 x = finite (nearest32 x) := by
  unfold round32
  rw [if_pos h]

/-- Rounding evaluated from a known binade and a known rounded significand. -/
theorem round32_eval (x : ℚ) (e n : Int) (h1 : (2 : ℚ) ^ e ≤ |x|) (h2 : |x| < (2 : ℚ) ^ (e + 1))
    (hn : roundEven (x / (2 : ℚ) ^ (max e (-126) - 23)) = n)
    (hfin : |(n : ℚ) * (2 : ℚ) ^ (max e (-126) - 23)| < 2 ^ 128) :
    round32 x = finite ((n : ℚ) * (2 : ℚ) ^ (max e (-126) - 23)) := by
  have hn32 : nearest32 x = (n : ℚ) * (2 : ℚ) ^ (max e (-126) - 23) := by
    unfold nearest32 ulp32
    rw [exp32_eq x e h1 h2, hn]
  rw [round32_of_lt x (by rw [hn32]; exact hfin), hn32]

end Binary32

/-! ## The IR conditioner in binary32 -/

section Conditioner32

open CKFloat

theorem round32_finite (v : ℚ) (hv : |v| ≤ 2 ^ 127) :
    ∃ y : ℚ, round32 v = finite y ∧
      |y - v| ≤ max |v| ((1 / 2 ^ 126 : ℚ)) * (1 / 2 ^ 24 : ℚ) := by
  have herr : |nearest32 v - v| ≤ max |v| (1 / 2 ^ 126 : ℚ) * (1 / 2 ^ 24 : ℚ) := by
    have h := abs_nearest32_sub_le_max v
    have h126 : (2 : ℚ) ^ (-126 : Int) = 1 / 2 ^ 126 := by norm_num
    have h24 : (2 : ℚ) ^ (-24 : Int) = 1 / 2 ^ 24 := by norm_num
    rw [h126, h24] at h
    exact h
  refine ⟨nearest32 v, round32_of_lt v ?_, herr⟩
  have hmax : max |v| ((1 / 2 ^ 126 : ℚ)) ≤ 2 ^ 127 :=
    max_le hv (by norm_num)
  have h24 : (0 : ℚ) ≤ (1 / 2 ^ 24 : ℚ) := by norm_num
  have h1 : |nearest32 v - v| ≤ 2 ^ 127 * (1 / 2 ^ 24 : ℚ) :=
    le_trans herr (mul_le_mul_of_nonneg_right hmax h24)
  have h2 : |nearest32 v| ≤ |nearest32 v - v| + |v| := by
    have := abs_add (nearest32 v - v) v
    simpa using this
  have h3 : (2 : ℚ) ^ 127 * (1 / 2 ^ 24 : ℚ) + 2 ^ 127 < 2 ^ 128 := by norm_num
  calc |nearest32 v| ≤ |nearest32 v - v| + |v| := h2
    _ ≤ 2 ^ 127 * (1 / 2 ^ 24 : ℚ) + 2 ^ 127 := add_le_add h1 hv
    _ < 2 ^ 128 := h3

theorem isBinary32_abs_lt {q : ℚ} (h : (finite q).IsBinary32) : |q| < 2 ^ 128 := by
  have h' : round32 q = finite q := h
  unfold round32 at h'
  by_cases hlt : |nearest32 q| < 2 ^ 128
  · rw [if_pos hlt] at h'
    injection h' with h'
    rw [← h']
    exact hlt
  · rw [if_neg hlt] at h'
    split at h' <;> cases h'

theorem peakThreshold32_eq :
    ConvRev.peakThreshold32 = finite ((8796093 / 2 ^ 43 : ℚ)) := by
  have hmax : max (-20 : Int) (-126) - 23 = -43 := by decide
  have h := round32_eval (1 / 1000000) (-20) 8796093
    (by rw [abs_of_pos (by positivity)]; norm_num)
    (by rw [abs_of_pos (by positivity)]; norm_num)
    (by
      rw [hmax]
      exact roundEven_of_lt (1 / 1000000 / (2 : ℚ) ^ (-43 : Int)) 8796093
        (by norm_num) (by norm_num))
    (by rw [hmax]; rw [abs_of_pos (by positivity)]; norm_num)
  rw [hmax] at h
  unfold ConvRev.peakThreshold32
  rw [h]
  norm_num

/-- The magnitude of a product with the rounded scale `s` of `x = 0.5 / M`. -/
theorem abs_mul_scale_le (M x s q : ℚ) (hM : 0 < M) (hM' : M < 2 ^ 128) (hx : x = 1 / 2 / M)
    (hs : |s - x| ≤ max |x| ((1 / 2 ^ 126 : ℚ)) * (1 / 2 ^ 24 : ℚ))
    (hq : |q| ≤ M) : |q * s| ≤ 1 / 2 + (1 / 2 ^ 22 : ℚ) := by
  have hxpos : 0 < x := by rw [hx]; positivity
  have habsx : |x| = x := abs_of_pos hxpos
  have hMx : M * x = 1 / 2 := by rw [hx]; field_simp; ring
  have hmax : max |x| ((1 / 2 ^ 126 : ℚ)) ≤ 4 / M := by
    apply max_le
    · rw [habsx, hx, div_le_div_iff_of_pos_right hM]
      norm_num
    · rw [le_div_iff₀ hM]
      have : (1 / 2 ^ 126 : ℚ) * M ≤ (1 / 2 ^ 126 : ℚ) * 2 ^ 128 :=
        mul_le_mul_of_nonneg_left (le_of_lt hM') (by positivity)
      have h4 : (1 / 2 ^ 126 : ℚ) * 2 ^ 128 = 4 := by norm_num
      linarith
  have h24 : (0 : ℚ) ≤ (1 / 2 ^ 24 : ℚ) := by positivity
  have hs' : |s - x| ≤ 4 / M * (1 / 2 ^ 24 : ℚ) :=
    le_trans hs (mul_le_mul_of_nonneg_right hmax h24)
  have hsabs : |s| ≤ x + 4 / M * (1 / 2 ^ 24 : ℚ) := by
    have := abs_add (s - x) x
    have e : s - x + x = s := by ring
    rw [e, habsx] at this
    linarith
  have hMs : M * |s| ≤ 1 / 2 + (1 / 2 ^ 22 : ℚ) := by
    have h1 : M * |s| ≤ M * (x + 4 / M * (1 / 2 ^ 24 : ℚ)) :=
      mul_le_mul_of_nonneg_left hsabs (le_of_lt hM)
    have h0 : M * (4 / M) = 4 := by field_simp
    have h2 : M * (x + 4 / M * (1 / 2 ^ 24 : ℚ)) = M * x + 4 * (1 / 2 ^ 24 : ℚ) := by
      calc M * (x + 4 / M * (1 / 2 ^ 24 : ℚ)) = M * x + M * (4 / M) * (1 / 2 ^ 24 : ℚ) := by ring
        _ = M * x + 4 * (1 / 2 ^ 24 : ℚ) := by rw [h0]
    have h3 : 4 * (1 / 2 ^ 24 : ℚ) = (1 / 2 ^ 22 : ℚ) := by norm_num
    rw [h2, hMx, h3] at h1
    exact h1
  rw [abs_mul]
  exact le_trans (mul_le_mul_of_nonneg_right hq (abs_nonneg s)) hMs

theorem conditionIR32_length (ir : List Sample) :
    (ConvRev.conditionIR32 ir).length = ir.length := by
  unfold ConvRev.conditionIR32
  simp only []
  split <;> split <;> simp [vecFill_length]

theorem conditionIR32_scrub (ir : List Sample) (h : ConvRev.hasPoly ir = true) :
    ConvRev.conditionIR32 ir = List.replicate ir.length CKFloat.zero := by
  unfold ConvRev.conditionIR32
  simp only [h, if_true, vecFill, maxVal_replicate_zero]
  have : CKFloat.zero.gt ConvRev.peakThreshold32 = false := by
    rw [peakThreshold32_eq]
    simp only [CKFloat.zero, CKFloat.gt, decide_eq_false_iff_not, not_lt]
    positivity
  rw [this]
  simp

/-- The binary32 conditioner on finite coefficients with peak `M`. -/
theorem conditionIR32_finite {qs : List ℚ} {M : ℚ} (h : IsPeakQ qs M) :
    ConvRev.conditionIR32 (qs.map finite) =
      if (8796093 / 2 ^ 43 : ℚ) < M then
        qs.map (fun q => (finite q).mul32 (round32 (1 / 2 / M)))
      else qs.map finite := by
  unfold ConvRev.conditionIR32
  simp only [hasPoly_map_finite, Bool.false_eq_true, if_false, maxVal_of_peak h,
    peakThreshold32_eq, CKFloat.gt, decide_eq_true_eq]
  by_cases hM : (8796093 / 2 ^ 43 : ℚ) < M
  · have hpos : 0 < M := lt_trans (by positivity) hM
    have hne : M ≠ 0 := ne_of_gt hpos
    simp only [hM, if_true, ConvRev.half, CKFloat.div32, CKFloat.div, if_neg hne, CKFloat.toF32,
      List.map_map]
    rfl
  · simp only [hM, if_false]

/-- In binary32 every conditioned coefficient is finite, of absolute value at most
`0.5 + 2^-21`, whenever the stored coefficients are binary32 values. -/
theorem conditionIR32_bounded (ir : List Sample) (hb : ∀ c ∈ ir, c.IsBinary32) :
    ∀ c ∈ ConvRev.conditionIR32 ir,
      ∃ q : ℚ, c = finite q ∧ |q| ≤ 1 / 2 + (1 / 2 ^ 21 : ℚ) := by
  intro c hc
  cases hp : ConvRev.hasPoly ir with
  | true =>
    rw [conditionIR32_scrub ir hp] at hc
    have := List.eq_of_mem_replicate hc
    exact ⟨0, this, by rw [abs_zero]; positivity⟩
  | false =>
    obtain ⟨qs, rfl⟩ := eq_map_finite_of_hasPoly_false ir hp
    obtain ⟨M, _, hM⟩ := maxVal_map_finite qs
    rw [conditionIR32_finite hM] at hc
    by_cases hlt : (8796093 / 2 ^ 43 : ℚ) < M
    · rw [if_pos hlt] at hc
      obtain ⟨q, hq, rfl⟩ := List.mem_map.mp hc
      have hpos : 0 < M := lt_trans (by positivity) hlt
      have hM128 : M < 2 ^ 128 := by
        rcases hM.2 with ⟨q', hq', he⟩ | ⟨_, h0⟩
        · rw [← he]
          exact isBinary32_abs_lt (hb (finite q') (List.mem_map.mpr ⟨q', hq', rfl⟩))
        · rw [h0]; positivity
      have hxle : |1 / 2 / M| ≤ 2 ^ 127 := by
        rw [abs_of_pos (by positivity), div_le_iff₀ hpos]
        have h1 : (2 : ℚ) ^ 127 * ((8796093 / 2 ^ 43 : ℚ)) ≤ 2 ^ 127 * M :=
          mul_le_mul_of_nonneg_left (le_of_lt hlt) (by positivity)
        have h2 : (1 : ℚ) / 2 ≤ 2 ^ 127 * ((8796093 / 2 ^ 43 : ℚ)) := by norm_num
        linarith
      obtain ⟨s, hs, hserr⟩ := round32_finite (1 / 2 / M) hxle
      have hqs := abs_mul_scale_le M (1 / 2 / M) s q hpos hM128 rfl hserr (hM.1 q hq)
      have h22 : (1 / 2 ^ 22 : ℚ) ≤ 1 / 2 := by norm_num
      have hv1 : |q * s| ≤ 1 := by linarith
      obtain ⟨y, hy, hyerr⟩ := round32_finite (q * s)
        (le_trans hv1 (by norm_num))
      refine ⟨y, ?_, ?_⟩
      · rw [hs]
        show round32 (q * s) = finite y
        exact hy
      · have hmax : max |q * s| ((1 / 2 ^ 126 : ℚ)) ≤ 1 := max_le hv1 (by norm_num)
        have h24 : (0 : ℚ) ≤ (1 / 2 ^ 24 : ℚ) := by positivity
        have herr : |y - q * s| ≤ 1 * (1 / 2 ^ 24 : ℚ) :=
          le_trans hyerr (mul_le_mul_of_nonneg_right hmax h24)
        have habs : |y| ≤ |y - q * s| + |q * s| := by
          have := abs_add (y - q * s) (q * s)
          simpa using this
        have hsum : (1 : ℚ) / 2 + (1 / 2 ^ 22 : ℚ) + 1 * (1 / 2 ^ 24 : ℚ) ≤
            1 / 2 + (1 / 2 ^ 21 : ℚ) := by norm_num
        linarith
    · rw [if_neg hlt] at hc
      obtain ⟨q, hq, rfl⟩ := List.mem_map.mp hc
      have h1 := hM.1 q hq
      have h2 : (8796093 / 2 ^ 43 : ℚ) ≤ 1 / 2 := by norm_num
      have h3 : (0 : ℚ) ≤ (1 / 2 ^ 21 : ℚ) := by positivity
      exact ⟨q, rfl, by linarith [not_lt.mp hlt]⟩

end Conditioner32

/-! ## The conditioned IR handed to the engine -/

section SafeIR

variable {E : Type}

open CKFloat

theorem round32_2e38 : round32 (2 * 10 ^ 38) = finite (9860761 * 2 ^ 104) := by
  have hmax : max (127 : Int) (-126) - 23 = 104 := by decide
  have h := round32_eval (2 * 10 ^ 38) 127 9860761
    (by rw [abs_of_pos (by positivity)]; norm_num)
    (by rw [abs_of_pos (by positivity)]; norm_num)
    (by
      rw [hmax]
      exact roundEven_of_lt (2 * 10 ^ 38 / (2 : ℚ) ^ (104 : Int)) 9860761
        (by norm_num) (by norm_num))
    (by rw [hmax]; rw [abs_of_pos (by positivity)]; norm_num)
  rw [hmax] at h
  rw [h]
  norm_num

theorem isBinary32_2e38 : (finite (9860761 * 2 ^ 104)).IsBinary32 := by
  have hmax : max (127 : Int) (-126) - 23 = 104 := by decide
  have h := round32_eval (9860761 * 2 ^ 104) 127 9860761
    (by rw [abs_of_pos (by positivity)]; norm_num)
    (by rw [abs_of_pos (by positivity)]; norm_num)
    (by
      rw [hmax]
      exact roundEven_of_lt (9860761 * 2 ^ 104 / (2 : ℚ) ^ (104 : Int)) 9860761
        (by norm_num) (by norm_num))
    (by rw [hmax]; rw [abs_of_pos (by positivity)]; norm_num)
  rw [hmax] at h
  show round32 (9860761 * 2 ^ 104) = finite (9860761 * 2 ^ 104)
  rw [h]
  norm_num

/-- The binary32 quotient `0.5f / 2e38f` is the subnormal `1784060 * 2^-149`. -/
theorem scale32_2e38 :
    round32 (1 / 2 / (9860761 * 2 ^ 104)) = finite (1784060 * (2 : ℚ) ^ (-149 : Int)) := by
  have hmax : max (-129 : Int) (-126) - 23 = -149 := by decide
  have h := round32_eval (1 / 2 / (9860761 * 2 ^ 104)) (-129) 1784060
    (by rw [abs_of_pos (by positivity)]; norm_num)
    (by rw [abs_of_pos (by positivity)]; norm_num)
    (by
      rw [hmax]
      have := roundEven_of_gt (1 / 2 / (9860761 * 2 ^ 104) / (2 : ℚ) ^ (-149 : Int)) 1784059
        (by norm_num) (by norm_num)
      rw [this]; norm_num)
    (by rw [hmax]; rw [abs_of_pos (by positivity)]; norm_num)
  rw [hmax] at h
  exact_mod_cast h

/-- The binary32 product `2e38f * scale` is `0.5 + 2^-23`. -/
theorem product32_2e38 :
    round32 (9860761 * 2 ^ 104 * (1784060 * (2 : ℚ) ^ (-149 : Int))) =
      finite (4194305 / 8388608) := by
  have hmax : max (-1 : Int) (-126) - 23 = -24 := by decide
  have h := round32_eval (9860761 * 2 ^ 104 * (1784060 * (2 : ℚ) ^ (-149 : Int))) (-1) 8388610
    (by rw [abs_of_pos (by positivity)]; norm_num)
    (by rw [abs_of_pos (by positivity)]; norm_num)
    (by
      rw [hmax]
      have := roundEven_of_gt
        (9860761 * 2 ^ 104 * (1784060 * (2 : ℚ) ^ (-149 : Int)) / (2 : ℚ) ^ (-24 : Int)) 8388609
        (by norm_num) (by norm_num)
      rw [this]; norm_num)
    (by rw [hmax]; rw [abs_of_pos (by positivity)]; norm_num)
  rw [hmax] at h
  rw [h]
  norm_num

theorem conditionIR32_2e38 :
    ConvRev.conditionIR32 [finite (9860761 * 2 ^ 104)] = [finite (4194305 / 8388608)] := by
  have hp : IsPeakQ [9860761 * 2 ^ 104] (9860761 * 2 ^ 104) :=
    ⟨by simp [abs_of_pos], Or.inl ⟨9860761 * 2 ^ 104, by simp, abs_of_pos (by positivity)⟩⟩
  have h := conditionIR32_finite hp
  rw [if_pos (by norm_num)] at h
  simp only [List.map_cons, List.map_nil] at h
  rw [h, scale32_2e38]
  show [round32 (9860761 * 2 ^ 104 * (1784060 * (2 : ℚ) ^ (-149 : Int)))] = _
  rw [product32_2e38]

/-- C9 (counterexample). In the binary32 arithmetic of the source, for the single
stored coefficient `2e38f` (the binary32 value `9860761 * 2^104`, order 1), the
quotient `0.5f / max_val` is subnormal and rounds up, and `init` hands the engine
the IR `[0.5 + 2^-23]` (about `0.50000012`), whose value exceeds `0.5`. -/
theorem init32_hands_peak_above_half :
    round32 (2 * 10 ^ 38) = finite (9860761 * 2 ^ 104) ∧
    (finite (9860761 * 2 ^ 104)).IsBinary32 ∧
    IRInv (demoWithIR [finite (9860761 * 2 ^ 104)]) ∧
    ((demoWithIR [finite (9860761 * 2 ^ 104)]).init32 echoEngine).convolver =
      [[finite (4194305 / 8388608)]] ∧
    ((demoWithIR [finite (9860761 * 2 ^ 104)]).init32 echoEngine).ir_buffer =
      [finite (4194305 / 8388608)] ∧
    (1 / 2 : ℚ) < |4194305 / 8388608| ∧
    ¬ (∀ c ∈ ((demoWithIR [finite (9860761 * 2 ^ 104)]).init32 echoEngine).ir_buffer,
        ∃ q : ℚ, c = finite q ∧ |q| ≤ 1 / 2) := by
  have hir : ((demoWithIR [finite (9860761 * 2 ^ 104)]).init32 echoEngine).ir_buffer =
      [finite (4194305 / 8388608)] := conditionIR32_2e38
  have hgt : (1 / 2 : ℚ) < |4194305 / 8388608| := by
    rw [abs_of_pos (by norm_num)]; norm_num
  refine ⟨round32_2e38, isBinary32_2e38, by simp [IRInv, demoWithIR], ?_, hir, hgt, ?_⟩
  · show [ConvRev.conditionIR32 [finite (9860761 * 2 ^ 104)]] = _
    rw [conditionIR32_2e38]
  · intro hall
    rw [hir] at hall
    obtain ⟨q, hq, hle⟩ := hall (finite (4194305 / 8388608)) (List.mem_singleton.mpr rfl)
    injection hq with hq
    rw [← hq] at hle
    exact absurd hgt (not_lt.mpr hle)

/-- C9 (amended). Whatever the stored coefficients (finite, NaN, infinite, any
number of them), as long as their number equals the order, `init` calls the
engine's `init` with the block size, the order and the IR it also stores, whose
length equals the order and whose values are all finite; each value has absolute
value at most `0.5` over exact arithmetic, and at most `0.5 + 2^-21` in the
binary32 arithmetic of the source when the stored coefficients are binary32
values. -/
theorem init_hands_safe_ir (eng : Engine E) (s : ConvRev E) (h : IRInv s) :
    (∃ ir : List Sample,
      (s.init eng).convolver = eng.init s.convolver s.blocksize ir s.order ∧
      (s.init eng).ir_buffer = ir ∧
      (∀ c ∈ ir, ∃ q : ℚ, c = finite q ∧ |q| ≤ 1 / 2) ∧
      (ir.length : Int) = s.order) ∧
    ((∀ c ∈ s.ir_buffer, c.IsBinary32) →
      ∃ ir : List Sample,
        (s.init32 eng).convolver = eng.init s.convolver s.blocksize ir s.order ∧
        (s.init32 eng).ir_buffer = ir ∧
        (∀ c ∈ ir, ∃ q : ℚ, c = finite q ∧ |q| ≤ 1 / 2 + 1 / 2 ^ 21) ∧
        (ir.length : Int) = s.order) :=
  ⟨⟨ConvRev.conditionIR s.ir_buffer, rfl, rfl, conditionIR_bounded s.ir_buffer,
      by rw [conditionIR_length]; exact h⟩,
    fun hb => ⟨ConvRev.conditionIR32 s.ir_buffer, rfl, rfl, conditionIR32_bounded s.ir_buffer hb,
      by rw [conditionIR32_length]; exact h⟩⟩

/-- Witness for C9 (amended): with the logging engine, the IR `[+Inf, -3, NaN]`
is handed over as `[0, 0, 0]` in exact arithmetic, and the IR `[2e38f]` as a
single finite value within `0.5 + 2^-21` in binary32. -/
theorem init_hands_safe_ir_witness :
    IRInv (demoWithIR [posInf, finite (-3), nan]) ∧
    ((demoWithIR [posInf, finite (-3), nan]).init echoEngine).convolver =
      [[finite 0, finite 0, finite 0]] ∧
    (∃ ir : List Sample,
      ((demoWithIR [posInf, finite (-3), nan]).init echoEngine).convolver =
        echoEngine.init (demoWithIR [posInf, finite (-3), nan]).convolver
          (demoWithIR [posInf, finite (-3), nan]).blocksize ir
          (demoWithIR [posInf, finite (-3), nan]).order ∧
      ((demoWithIR [posInf, finite (-3), nan]).init echoEngine).ir_buffer = ir ∧
      (∀ c ∈ ir, ∃ q : ℚ, c = finite q ∧ |q| ≤ 1 / 2) ∧
      (ir.length : Int) = (demoWithIR [posInf, finite (-3), nan]).order) ∧
    IRInv (demoWithIR [finite (9860761 * 2 ^ 104)]) ∧
    (∀ c ∈ (demoWithIR [finite (9860761 * 2 ^ 104)]).ir_buffer, c.IsBinary32) ∧
    (∃ ir : List Sample,
      ((demoWithIR [finite (9860761 * 2 ^ 104)]).init32 echoEngine).convolver =
        echoEngine.init (demoWithIR [finite (9860761 * 2 ^ 104)]).convolver
          (demoWithIR [finite (9860761 * 2 ^ 104)]).blocksize ir
          (demoWithIR [finite (9860761 * 2 ^ 104)]).order ∧
      ((demoWithIR [finite (9860761 * 2 ^ 104)]).init32 echoEngine).ir_buffer = ir ∧
      (∀ c ∈ ir, ∃ q : ℚ, c = finite q ∧ |q| ≤ 1 / 2 + 1 / 2 ^ 21) ∧
      (ir.length : Int) = (demoWithIR [finite (9860761 * 2 ^ 104)]).order) :=
  have hi : IRInv (demoWithIR [posInf, finite (-3), nan]) := by
    simp [IRInv, demoWithIR]
  have hi2 : IRInv (demoWithIR [finite (9860761 * 2 ^ 104)]) := by
    simp [IRInv, demoWithIR]
  have hb : ∀ c ∈ (demoWithIR [finite (9860761 * 2 ^ 104)]).ir_buffer, c.IsBinary32 := by
    intro c hc
    have hc' : c ∈ [finite (9860761 * 2 ^ 104)] := hc
    rw [List.mem_singleton.mp hc']
    exact isBinary32_2e38
  ⟨hi,
    by
      have hp : ConvRev.hasPoly [posInf, finite (-3), nan] = true := by
        simp [ConvRev.hasPoly, isinf]
      show [ConvRev.conditionIR [posInf, finite (-3), nan]] = _
      rw [conditionIR_scrub _ hp]
      rfl,
    (init_hands_safe_ir echoEngine (demoWithIR [posInf, finite (-3), nan]) hi).1,
    hi2, hb,
    (init_hands_safe_ir echoEngine (demoWithIR [finite (9860761 * 2 ^ 104)]) hi2).2 hb⟩

end SafeIR
